import Mathlib

/-!
Verification development for the layr repository's plan-generation
orchestration subsystem.

The development shallowly embeds, from the TypeScript sources:
* the planner of part_002 (`hasUniqueIds`, `hasCycles`, `fallbackHeuristicPlan`,
  `generatePlan`) over the `PlanStep`/`Plan` data model of part_003;
* the `MistralClient` of layr-recreated/src/llm/mistral.ts (retry/backoff in
  `makeRequest`, the sanitization and JSON-parsing pipeline of
  `parseAndValidatePlan`, `getFallbackPlan`, and the catch-handlers of
  `generatePlan` / `refinePlan` / `critique`);
* the `LayerOrchestrator.generatePlan` provider-fallback control flow of
  part_005;
* `LLMClient.chat` of src/llmClient.ts.

JavaScript `Set`s of numeric ids are modelled as `List Int` (insert = prepend,
`Set.delete` = `List.erase`; all inserts in the modelled code are guarded by a
membership test, so the lists behave as sets). Asynchronous effects are
irrelevant to the claims: each `await` boundary is modelled by passing the
awaited outcome as an explicit argument. Thrown JavaScript exceptions are
modelled with `Except`/dedicated result constructors.
-/

namespace Layr

/-! ## Planner data model (src/types.ts of the planner implementation, part_003) -/

/-- `PlanStep` from part_003: `{ id: number, title, description, dependencies:
number[] }` (the optional `templates`/`commands`/`complexity`/
`estimatedTimeMin` fields are never read by the verified code paths). -/
structure PlanStep where
  id : Int
  title : String
  description : String
  dependencies : List Int
deriving DecidableEq, Repr

/-- `Plan` from part_003: `{ id: string, title, goal, steps: PlanStep[] }`
(optional `templates`/`metadata` omitted: never read by the verified paths). -/
structure Plan where
  id : String
  title : String
  goal : String
  steps : List PlanStep
deriving DecidableEq, Repr

/-! ## part_002: validation helpers -/

/-- The list `steps.map(s => s.id)`. -/
def stepIds (steps : List PlanStep) : List Int :=
  steps.map (fun s => s.id)

/-- part_002 `hasUniqueIds`: `ids.length === new Set(ids).size`.  The size of
the JS `Set` built from `ids` is the number of distinct elements, i.e.the
length of `ids.dedup`. -/
def hasUniqueIds (steps : List PlanStep) : Bool :=
  (stepIds steps).length == (stepIds steps).dedup.length

/-- The adjacency map built by `hasCycles`:
`steps.forEach(s => { graph[s.id] = s.dependencies || []; })`.
Later assignments overwrite earlier ones, so a lookup returns the
dependencies of the LAST step carrying that id; `none` models a key that was
never assigned (JS `undefined`). -/
def planGraph (steps : List PlanStep) : Int → Option (List Int) :=
  fun id => (steps.reverse.find? (fun s => s.id == id)).map (fun s => s.dependencies)

/-- The two mutable sets of `hasCycles`: `visited` and `recStack`. -/
structure DfsState where
  visited : List Int
  recStack : List Int
deriving DecidableEq, Repr

/-- Result of one `dfs(id)` call.
`found` models `return true` (the JS caller `steps.some` then short-circuits,
so the mutated sets are never read again and need not be carried);
`done st` models `return false` with the mutated sets;
`thrown` models the TypeError raised by `for (const dep of graph[id])` when
`graph[id]` is `undefined` (the mutated sets are discarded by the catch in
`generatePlan`/`refinePlan`);
`outOfFuel` is a model artifact of the fuel-based encoding of the recursion;
it is proved unreachable for the fuel used by `hasCycles`. -/
inductive DfsRes where
  | found : DfsRes
  | done : DfsState → DfsRes
  | thrown : DfsRes
  | outOfFuel : DfsRes
deriving DecidableEq, Repr

/-- The `for (const dep of graph[id])` loop body of `dfs`, parameterized by
the recursive call `visit` (instantiated with `dfsVisit` at one fuel less):

```
for (const dep of graph[id]) {
  if (!visited.has(dep) && dfs(dep)) return true;
  else if (recStack.has(dep)) return true;
}
```

Note the JS `&&` short-circuit: when `dep` is already visited the `else if`
tests `recStack` on the current state; when `dep` is unvisited and `dfs(dep)`
returns false, the `else if` tests `recStack` on the state mutated by that
call. -/
def dfsLoopWith (visit : Int → DfsState → DfsRes) : List Int → DfsState → DfsRes
  | [], st => .done st
  | dep :: rest, st =>
    if dep ∈ st.visited then
      if dep ∈ st.recStack then .found else dfsLoopWith visit rest st
    else
      match visit dep st with
      | .found => .found
      | .thrown => .thrown
      | .outOfFuel => .outOfFuel
      | .done st' =>
        if dep ∈ st'.recStack then .found else dfsLoopWith visit rest st'

/-- part_002 `dfs` inside `hasCycles`:

```
function dfs(id) {
  if (!visited.has(id)) {
    visited.add(id);
    recStack.add(id);
    for (const dep of graph[id]) { ... }   -- dfsLoopWith
  }
  recStack.delete(id);
  return false;
}
```

When `graph id = none` the JS code has already added `id` to both sets before
the `for` head throws; since `thrown` aborts the whole `hasCycles` call and
the sets are never read afterwards, the model discards that mutation. -/
def dfsVisit (g : Int → Option (List Int)) : Nat → Int → DfsState → DfsRes
  | 0, _, _ => .outOfFuel
  | fuel + 1, id, st =>
    if id ∈ st.visited then
      .done ⟨st.visited, st.recStack.erase id⟩
    else
      match g id with
      | none => .thrown
      | some deps =>
        match dfsLoopWith (dfsVisit g fuel) deps ⟨id :: st.visited, id :: st.recStack⟩ with
        | .done st' => .done ⟨st'.visited, st'.recStack.erase id⟩
        | r => r

/-- `steps.some(s => dfs(s.id))`, threading the mutable sets and
short-circuiting on `true`; a thrown TypeError aborts the whole call. -/
def hasCyclesGo (g : Int → Option (List Int)) (fuel : Nat) :
    List Int → DfsState → Option (Except Unit Bool)
  | [], _ => some (.ok false)
  | id :: rest, st =>
    match dfsVisit g fuel id st with
    | .found => some (.ok true)
    | .thrown => some (.error ())
    | .outOfFuel => none
    | .done st' => hasCyclesGo g fuel rest st'

/-- part_002 `hasCycles`.  `some (.ok b)` models a normal boolean return,
`some (.error ())` models the TypeError thrown on a dangling dependency
reference, and `none` (fuel exhaustion) is proved unreachable. -/
def hasCycles (steps : List PlanStep) : Option (Except Unit Bool) :=
  hasCyclesGo (planGraph steps) (steps.length + 1) (stepIds steps) ⟨[], []⟩

/-- The validation failures observable from `generatePlan`/`refinePlan` in
part_002.  `typeError` is the TypeError escaping `hasCycles`;
`outOfFuelModel` is the model artifact, proved unreachable. -/
inductive ValErr where
  | parseFailed
  | dupIds
  | cyclic
  | typeError
  | outOfFuelModel
deriving DecidableEq, Repr

/-- The validation sequence as invoked from part_002 `generatePlan` and
`refinePlan`:

```
if (!hasUniqueIds(plan.steps)) throw new Error('Step IDs must be unique');
if (hasCycles(plan.steps)) throw new Error('Plan has cyclic dependencies');
```

(`hasCycles` is only evaluated when the uniqueness check passed.) -/
def plannerValidate (steps : List PlanStep) : Except ValErr Unit :=
  if hasUniqueIds steps = false then .error .dupIds
  else
    match hasCycles steps with
    | some (.ok true) => .error .cyclic
    | some (.ok false) => .ok ()
    | some (.error ()) => .error .typeError
    | none => .error .outOfFuelModel

/-- part_002 `fallbackHeuristicPlan`. -/
def fallbackHeuristicPlan (goal : String) : Plan :=
  { id := "local-fallback"
    title := "Plan for: " ++ goal
    goal := goal
    steps :=
      [ { id := 1, title := "Initialize project", description := "Set up project structure",
          dependencies := [] }
      , { id := 2, title := "Create model", description := "Define data model",
          dependencies := [1] }
      , { id := 3, title := "Add routes", description := "Implement API routes",
          dependencies := [2] }
      , { id := 4, title := "Test project", description := "Write and run tests",
          dependencies := [3] } ] }

/-- Errors escaping part_002 `generatePlan` (and `refinePlan`).
`chatFailed` models a rejection of `llm.chat(...)`, which is awaited OUTSIDE
the try block and therefore propagates unwrapped.  `invalidPlanFormat e`
models the catch handler `throw new Error('Invalid plan format: ' +
e.message)` wrapping a parse or validation throw. -/
inductive PlannerErr where
  | chatFailed
  | invalidPlanFormat : ValErr → PlannerErr
deriving DecidableEq, Repr

/-- The parse+validate part of part_002 `generatePlan`'s try block applied to
an already-parsed plan, with the catch handler wrapping every throw. -/
def plannerCheckParsedPlan (p : Plan) : Except PlannerErr Plan :=
  match plannerValidate p.steps with
  | .ok () => .ok p
  | .error e => .error (.invalidPlanFormat e)

/-- part_002 `generatePlan goal`.  `apiKey` is the outcome of
`readKey()`; `chatOutcome` is the outcome of `llm.chat(PLAN_PROMPT(goal))`
followed by `llm.parseJsonResponse` (outer layer: chat rejection, propagated
unwrapped; inner layer: parse throw, wrapped by the catch).  With no API key
the heuristic plan is returned without contacting any provider. -/
def plannerGeneratePlan (apiKey : Option String)
    (chatOutcome : Except Unit (Except Unit Plan)) (goal : String) :
    Except PlannerErr Plan :=
  match apiKey with
  | none => .ok (fallbackHeuristicPlan goal)
  | some _ =>
    match chatOutcome with
    | .error () => .error .chatFailed
    | .ok (.error ()) => .error (.invalidPlanFormat .parseFailed)
    | .ok (.ok plan) => plannerCheckParsedPlan plan

/-! ## layr-recreated data model (src/types.ts, part_004) -/

/-- `Task` from layr-recreated types. -/
structure MTask where
  id : String
  title : String
  description : String
  status : String
  priority : String
  estimatedDuration : String
  dependencies : List String
  createdAt : String
  updatedAt : String
deriving DecidableEq, Repr

/-- The optional `Plan.metadata` object from layr-recreated types. -/
structure MPlanMetadata where
  complexity : Option String
  estimatedTotalDuration : Option String
  tags : Option (List String)
deriving DecidableEq, Repr

/-- `Plan` from layr-recreated types (status strings 'draft' | 'active' |
'completed' | 'archived' are modelled as `String`). -/
structure MPlan where
  id : String
  title : String
  description : String
  tasks : List MTask
  status : String
  createdAt : String
  updatedAt : String
  metadata : Option MPlanMetadata
deriving DecidableEq, Repr

/-! ## MistralClient retry policy (mistral.ts `makeRequest`) -/

/-- `RetryConfig` from layr-recreated types.  Delays are in whole
milliseconds; every delay computed by the code from the constructor's config
`{ maxRetries: 5, baseDelay: 2000, maxDelay: 30000, backoffFactor: 2 }` is a
natural number, so `Nat` models the JS numbers exactly on the reachable
values. -/
structure RetryConfig where
  maxRetries : Nat
  baseDelay : Nat
  maxDelay : Nat
  backoffFactor : Nat
deriving DecidableEq, Repr

/-- The retry config installed by the `MistralClient` constructor. -/
def mistralRetryConfig : RetryConfig :=
  { maxRetries := 5, baseDelay := 2000, maxDelay := 30000, backoffFactor := 2 }

/-- The four retryable failure classes distinguished by `makeRequest`. -/
inductive ErrClass where
  | rateLimited    -- HTTP 429
  | payment        -- HTTP 402
  | unavailable    -- HTTP 502 / 503
  | generic        -- any other retried failure
deriving DecidableEq, Repr

/-- The backoff delays computed inside `makeRequest`, one expression per
failure class:
* 429: `min(baseDelay * backoffFactor^attempt * 3, maxDelay)`
* 402: `min(baseDelay * backoffFactor^attempt * 2, maxDelay)`
* 502/503: `min(baseDelay * backoffFactor^attempt, maxDelay / 2)`
* generic: `min(baseDelay * backoffFactor^attempt, maxDelay)` -/
def backoffDelay (cfg : RetryConfig) (attempt : Nat) : ErrClass → Nat
  | .rateLimited => min (cfg.baseDelay * cfg.backoffFactor ^ attempt * 3) cfg.maxDelay
  | .payment => min (cfg.baseDelay * cfg.backoffFactor ^ attempt * 2) cfg.maxDelay
  | .unavailable => min (cfg.baseDelay * cfg.backoffFactor ^ attempt) (cfg.maxDelay / 2)
  | .generic => min (cfg.baseDelay * cfg.backoffFactor ^ attempt) cfg.maxDelay

/-- Outcome of one `axios.post` attempt.  `failure none` models a non-HTTP
failure (network error, timeout, non-Axios throw); `failure (some s)` models
an `AxiosError` carrying HTTP status `s`. -/
inductive ReqOutcome where
  | success : Nat → ReqOutcome      -- response.data, abstracted to a token
  | failure : Option Nat → ReqOutcome
deriving DecidableEq, Repr

/-- The error thrown by `makeRequest`: either a caught attempt error rethrown
(immediately for non-retryable client statuses, or as `lastError` after
exhaustion), or the `new Error('Max retries exceeded')` default used when
`lastError` is null. -/
inductive MRErr where
  | fromAttempt : Option Nat → MRErr
  | defaultMaxRetries : MRErr
deriving DecidableEq, Repr

/-- Result of `makeRequest`: the returned/thrown value, the number of
attempts actually issued, and the backoff sleeps performed (in order). -/
structure MRResult where
  result : Except MRErr Nat
  attempts : Nat
  delays : List Nat
deriving Repr

/-- The `for (let attempt = 0; attempt <= maxRetries; attempt++)` loop of
`makeRequest`.  `resp i` is the outcome of the attempt with index `i`;
`remaining` counts the loop iterations left (`maxRetries + 1 - attempt`);
`lastStatus` holds the status of the last caught error (`none` = JS
`lastError === null`).  Branch order follows the source: 429, then 402, then
503/502, then `status && status < 500` (immediate rethrow), then the generic
retry path which only sleeps while `attempt < maxRetries`. -/
def mrGo (cfg : RetryConfig) (resp : Nat → ReqOutcome) :
    Nat → Nat → Option (Option Nat) → List Nat → MRResult
  | attempt, 0, lastStatus, ds =>
    { result := .error (match lastStatus with
        | some s => .fromAttempt s
        | none => .defaultMaxRetries)
      attempts := attempt
      delays := ds.reverse }
  | attempt, remaining + 1, lastStatus, ds =>
    match resp attempt with
    | .success d => { result := .ok d, attempts := attempt + 1, delays := ds.reverse }
    | .failure st =>
      match st with
      | some s =>
        if s = 429 then
          mrGo cfg resp (attempt + 1) remaining (some st)
            (backoffDelay cfg attempt .rateLimited :: ds)
        else if s = 402 then
          mrGo cfg resp (attempt + 1) remaining (some st)
            (backoffDelay cfg attempt .payment :: ds)
        else if s = 503 ∨ s = 502 then
          mrGo cfg resp (attempt + 1) remaining (some st)
            (backoffDelay cfg attempt .unavailable :: ds)
        else if s ≠ 0 ∧ s < 500 then
          { result := .error (.fromAttempt st), attempts := attempt + 1, delays := ds.reverse }
        else if attempt < cfg.maxRetries then
          mrGo cfg resp (attempt + 1) remaining (some st)
            (backoffDelay cfg attempt .generic :: ds)
        else
          mrGo cfg resp (attempt + 1) remaining (some st) ds
      | none =>
        if attempt < cfg.maxRetries then
          mrGo cfg resp (attempt + 1) remaining (some st)
            (backoffDelay cfg attempt .generic :: ds)
        else
          mrGo cfg resp (attempt + 1) remaining (some st) ds

/-- `MistralClient.makeRequest`, given the per-attempt outcomes. -/
def makeRequest (cfg : RetryConfig) (resp : Nat → ReqOutcome) : MRResult :=
  mrGo cfg resp 0 (cfg.maxRetries + 1) none []

/-- An attempt outcome that `makeRequest` retries rather than rethrowing:
a failure with status 429, 402, 502 or 503, with no HTTP status at all, or
with a status outside the `status && status < 500` guard. -/
def retryableFailure : ReqOutcome → Bool
  | .success _ => false
  | .failure none => true
  | .failure (some s) =>
    s == 429 || s == 402 || s == 502 || s == 503 || !(s != 0 && decide (s < 500))

/-! ## MistralClient fallback behaviour (`generatePlan` / `refinePlan` /
`critique` catch handlers, and `getFallbackPlan`) -/

/-- `getFallbackPlan(prompt)` from mistral.ts.  `nowMs` stands for the string
rendering of `Date.now()` and `nowIso` for `new Date().toISOString()`; the
code calls both several times within the same function body, and the model
assumes the timestamps coincide within the call (the claims do not depend on
it). -/
def getFallbackPlan (prompt nowMs nowIso : String) : MPlan :=
  { id := "plan_" ++ nowMs ++ "_fallback"
    title := "Plan for: " ++ (String.mk (prompt.data.take 50)) ++ "..."
    description := "This is a fallback plan generated when the AI service is unavailable. Please review and customize as needed."
    tasks :=
      [ { id := "task_" ++ nowMs ++ "_1", title := "Research and Planning"
          description := "Gather requirements and create a detailed plan for the task"
          status := "todo", priority := "high", estimatedDuration := "2 hours"
          dependencies := [], createdAt := nowIso, updatedAt := nowIso }
      , { id := "task_" ++ nowMs ++ "_2", title := "Implementation"
          description := "Execute the main work based on the plan"
          status := "todo", priority := "high", estimatedDuration := "4 hours"
          dependencies := ["task_" ++ nowMs ++ "_1"], createdAt := nowIso, updatedAt := nowIso }
      , { id := "task_" ++ nowMs ++ "_3", title := "Review and Testing"
          description := "Review the work and test for quality assurance"
          status := "todo", priority := "medium", estimatedDuration := "1 hour"
          dependencies := ["task_" ++ nowMs ++ "_2"], createdAt := nowIso, updatedAt := nowIso } ]
    status := "draft"
    createdAt := nowIso
    updatedAt := nowIso
    metadata := none }

/-- The `Plan` value returned by `parseAndValidatePlan` on success: ids and
timestamps are stamped locally, `status` is the literal `'draft'`, and no
`metadata` field is set.  `title`/`description`/`tasks` come from the parsed
JSON, `nowMs`/`rand`/`nowIso` from `Date.now()` / `Math.random()...` /
`new Date().toISOString()`. -/
def mkParsedPlan (title description : String) (tasks : List MTask)
    (nowMs rand nowIso : String) : MPlan :=
  { id := "plan_" ++ nowMs ++ "_" ++ rand
    title := title
    description := description
    tasks := tasks
    status := "draft"
    createdAt := nowIso
    updatedAt := nowIso
    metadata := none }

/-- `MistralClient.generatePlan`: the entire body (request, content
extraction, `parseAndValidatePlan`) sits in a try whose catch returns
`getFallbackPlan(prompt)`.  `tryOutcome` is the outcome of that try block. -/
def mistralGeneratePlan (tryOutcome : Except Unit MPlan)
    (prompt nowMs nowIso : String) : MPlan :=
  match tryOutcome with
  | .ok p => p
  | .error _ => getFallbackPlan prompt nowMs nowIso

/-- `MistralClient.refinePlan`: on success the parsed plan is returned with
the original's `id` and `createdAt` and a fresh `updatedAt`; the catch
returns the original plan unchanged (`return plan; // Return original plan if
refinement fails`). -/
def mistralRefinePlan (plan : MPlan) (tryOutcome : Except Unit MPlan)
    (nowIso : String) : MPlan :=
  match tryOutcome with
  | .ok refinedPlan =>
    { refinedPlan with id := plan.id, createdAt := plan.createdAt, updatedAt := nowIso }
  | .error _ => plan

/-- `MistralClient.critique`: on success
`response.choices[0]?.message?.content || 'Unable to generate critique.'`;
the catch returns a canned review-it-yourself string. -/
def mistralCritique (tryOutcome : Except Unit (Option String)) : String :=
  match tryOutcome with
  | .ok (some content) => content
  | .ok none => "Unable to generate critique."
  | .error _ => "Expert critique unavailable due to API error. Consider reviewing the plan manually for completeness, realistic timelines, and proper task organization."

/-! ## LayerOrchestrator.generatePlan (part_005) -/

/-- The two providers the orchestrator knows. -/
inductive Provider where
  | mistral
  | deepseek
deriving DecidableEq, Repr

/-- `provider === 'mistral' ? 'deepseek' : 'mistral'`. -/
def fallbackOf : Provider → Provider
  | .mistral => .deepseek
  | .deepseek => .mistral

/-- Which clients were initialized (an API key was present in the
environment for them). -/
structure OrchConfig where
  hasMistral : Bool
  hasDeepseek : Bool
deriving DecidableEq, Repr

/-- `getLLMClient(provider)` succeeds iff the client was initialized. -/
def hasClient (c : OrchConfig) : Provider → Bool
  | .mistral => c.hasMistral
  | .deepseek => c.hasDeepseek

/-- `availableProviders` getter: `['mistral'?, 'deepseek'?]` in that order. -/
def availableProviders (c : OrchConfig) : List Provider :=
  (if c.hasMistral then [.mistral] else []) ++
  (if c.hasDeepseek then [.deepseek] else [])

/-- Errors escaping `LayerOrchestrator.generatePlan`.
`clientNotAvailable p` models
`throw new Error(provider + ' client not available. ...')` from
`tryGeneratePlan`, and `clientError` a rejection of
`client.generatePlan(...)` itself. -/
inductive OrchErr where
  | clientNotAvailable : Provider → OrchErr
  | clientError : OrchErr
deriving DecidableEq, Repr

/-- `tryGeneratePlan(provider, ...)`: throws when the client is missing,
otherwise forwards the client call's outcome.  `clientGen p` is the outcome
of `client.generatePlan(prompt, context)` for provider `p`. -/
def tryGeneratePlan (c : OrchConfig) (clientGen : Provider → Except Unit MPlan)
    (p : Provider) : Except OrchErr MPlan :=
  if hasClient c p then
    match clientGen p with
    | .ok plan => .ok plan
    | .error _ => .error .clientError
  else
    .error (.clientNotAvailable p)

/-- The provider-fallback control flow of `LayerOrchestrator.generatePlan`
(session bookkeeping, which only appends conversation messages and persists
the session, is elided): try the primary provider; on failure, if more than
one provider is available and the alternate is among them, try the alternate
once; if no plan was obtained, `throw lastError` — `lastError` is only ever
assigned in the primary attempt's catch, and is non-null whenever the plan is
null, so the primary attempt's error is rethrown. -/
def orchGeneratePlan (c : OrchConfig) (clientGen : Provider → Except Unit MPlan)
    (primary : Provider) : Except OrchErr MPlan :=
  match tryGeneratePlan c clientGen primary with
  | .ok plan => .ok plan
  | .error e1 =>
    if (availableProviders c).length > 1 ∧ fallbackOf primary ∈ availableProviders c then
      match tryGeneratePlan c clientGen (fallbackOf primary) with
      | .ok plan => .ok plan
      | .error _ => .error e1
    else
      .error e1

/-! ## LLMClient.chat (src/llmClient.ts) -/

/-- Errors thrown by `LLMClient.chat`: the fixed unauthorized message for
status 401, the original error rethrown for any other failure, and the fixed
`new Error('Rate limit exceeded. Please wait a few minutes and try again.')`
created after `maxAttempts` rate-limited attempts (note: a fresh error, not
the last caught one). -/
inductive ChatErr where
  | unauthorizedMsg
  | raised : Option Nat → ChatErr
  | rateLimitExceededMsg
deriving DecidableEq, Repr

/-- Result of `chat`: outcome, attempts issued, and sleeps performed. -/
structure ChatResult where
  result : Except ChatErr Nat
  attempts : Nat
  delays : List Nat
deriving Repr

/-- The `while (attempt < maxAttempts)` loop of `LLMClient.chat`
(`maxAttempts = 3`, `delay` starts at 5000 ms and doubles after each
rate-limited attempt): status 429 sleeps and retries, status 401 throws the
fixed unauthorized error, anything else rethrows the original error. -/
def chatGo (resp : Nat → ReqOutcome) : Nat → Nat → Nat → List Nat → ChatResult
  | attempt, 0, _, ds => { result := .error .rateLimitExceededMsg, attempts := attempt, delays := ds.reverse }
  | attempt, remaining + 1, delay, ds =>
    match resp attempt with
    | .success d => { result := .ok d, attempts := attempt + 1, delays := ds.reverse }
    | .failure st =>
      if st = some 429 then
        chatGo resp (attempt + 1) remaining (delay * 2) (delay :: ds)
      else if st = some 401 then
        { result := .error .unauthorizedMsg, attempts := attempt + 1, delays := ds.reverse }
      else
        { result := .error (.raised st), attempts := attempt + 1, delays := ds.reverse }

/-- `LLMClient.chat` with its constants `maxAttempts = 3`, initial
`delay = 5000`. -/
def llmClientChat (resp : Nat → ReqOutcome) : ChatResult :=
  chatGo resp 0 3 5000 []

/-! ## MistralClient.parseAndValidatePlan: sanitization pipeline

Strings are processed as `List Char` (JS strings are sequences of UTF-16
units; every character in the verified inputs is in the BMP, where the two
notions coincide). -/

/-- The characters matched by the JS `\s` class on the inputs of interest
(space, tab, line feed, carriage return, vertical tab, form feed; Unicode
space separators are irrelevant to the verified inputs). -/
def isJsWs (c : Char) : Bool :=
  c = ' ' ∨ c = '\t' ∨ c = '\n' ∨ c = '\r' ∨ c = '\x0b' ∨ c = '\x0c'

/-- JS `String.prototype.trim()`. -/
def jsTrim (s : List Char) : List Char :=
  ((s.dropWhile isJsWs).reverse.dropWhile isJsWs).reverse

/-- `.replace(/\s*```$/, '')`: if the string ends with a backtick fence, the
regex's sole match is the final fence together with the run of whitespace
immediately before it (the `$` anchor pins the match to the end; with no
trailing fence there is no match). -/
def stripTrailingFence (s : List Char) : List Char :=
  if ("```".data).reverse.isPrefixOf s.reverse then
    ((s.take (s.length - 3)).reverse.dropWhile isJsWs).reverse
  else s

/-- The fence-removal step of `parseAndValidatePlan`:

```
if (jsonContent.startsWith('```json')) {
  jsonContent = jsonContent.replace(/^```json\s*/, '').replace(/\s*```$/, '');
} else if (jsonContent.startsWith('```')) {
  jsonContent = jsonContent.replace(/^```\s*/, '').replace(/\s*```$/, '');
}
```

`replace(/^```json\s*/, '')` drops the 7-character tag and the greedy run of
whitespace after it. -/
def stripFences (s : List Char) : List Char :=
  if ("```json".data).isPrefixOf s then
    stripTrailingFence ((s.drop 7).dropWhile isJsWs)
  else if ("```".data).isPrefixOf s then
    stripTrailingFence ((s.drop 3).dropWhile isJsWs)
  else s

/-- Scan for the lazily-shortest span `{...}` whose closing brace is followed
only by whitespace: given the suffix starting at the first opening brace,
return the prefix up to (and including) the first closing brace whose tail is
all-whitespace. -/
def lazyCloseSpan (acc : List Char) : List Char → Option (List Char)
  | [] => none
  | c :: rest =>
    if c = '\x7d' ∧ rest.all isJsWs then some (acc ++ [c])
    else lazyCloseSpan (acc ++ [c]) rest

/-- The suffix of `s` starting at its first opening brace, if any. -/
def fromFirstBrace : List Char → Option (List Char)
  | [] => none
  | c :: rest => if c = '\x7b' then some (c :: rest) else fromFirstBrace rest

/-- `const jsonMatch = jsonContent.match(/\{[\s\S]*?\}(?=\s*$)/); if
(jsonMatch) jsonContent = jsonMatch[0];`

The regex match, when it exists, starts at the first `{` of the string: a
match starting at a later `{` would need a valid closing brace after that
later position, and any such brace also validates a match from the first `{`.
The lazy quantifier selects the earliest closing brace whose remaining tail
is whitespace. -/
def regexJsonMatch (s : List Char) : List Char :=
  match fromFirstBrace s with
  | none => s
  | some suffix =>
    match lazyCloseSpan [] suffix with
    | some span => span
    | none => s

/-- A raw control character in the sense of the sanitizer's character class
`[\x00-\x1F\x7F]`. -/
def isRawCtl (c : Char) : Bool :=
  c.toNat ≤ 0x1F ∨ c.toNat = 0x7F

/-- `.replace(/[\x00-\x1F\x7F]/g, '')`. -/
def stripControlChars (s : List Char) : List Char :=
  s.filter (fun c => !isRawCtl c)

/-- A global `String.replace` of one fixed two-character pattern, scanning
left to right without overlap and resuming after each replacement — the
semantics of `.replace(/pq/g, r)` for literal characters `p`, `q`. -/
def replacePair (p q : Char) (r : List Char) : List Char → List Char
  | c1 :: c2 :: rest =>
    if c1 = p ∧ c2 = q then r ++ replacePair p q r rest
    else c1 :: replacePair p q r (c2 :: rest)
  | s => s

/-- The control-character / escape-sequence step of `parseAndValidatePlan`
(mistral.ts lines 278-284):

```
jsonContent = jsonContent
  .replace(/[\x00-\x1F\x7F]/g, '')  // Remove control characters
  .replace(/\\n/g, '\\n')           // Ensure newlines are properly escaped
  .replace(/\\r/g, '\\r')           // Ensure carriage returns are properly escaped
  .replace(/\\t/g, '\\t')           // Ensure tabs are properly escaped
  .replace(/\\\\/g, '\\');          // Fix double escaping
```

The middle three replaces rewrite a backslash-letter pair to itself; the last
one replaces each pair of consecutive backslashes by a single backslash. -/
def sanitizeControlStep (s : List Char) : List Char :=
  replacePair '\\' '\\' ['\\']
    (replacePair '\\' 't' ['\\', 't']
      (replacePair '\\' 'r' ['\\', 'r']
        (replacePair '\\' 'n' ['\\', 'n']
          (stripControlChars s))))

/-- The full candidate-extraction pipeline of `parseAndValidatePlan` up to
(but excluding) `JSON.parse`: trim, strip fences, regex-extract the brace
span, then the control-character/escape step. -/
def mistralSanitizedCandidate (content : String) : List Char :=
  sanitizeControlStep (regexJsonMatch (stripFences (jsTrim content.data)))

/-! ## A strict JSON parser (the semantics of `JSON.parse`) -/

/-- JSON values.  Numbers keep their source lexeme: no verified claim
inspects a numeric value, only (for JS truthiness) whether it is zero, which
is decidable from the lexeme. -/
inductive JsonVal where
  | jnull : JsonVal
  | jbool : Bool → JsonVal
  | jnum : List Char → JsonVal
  | jstr : List Char → JsonVal
  | jarr : List JsonVal → JsonVal
  | jobj : List (List Char × JsonVal) → JsonVal
deriving Repr, Inhabited

/-- JSON insignificant whitespace (RFC 8259: space, tab, LF, CR). -/
def isJsonWs (c : Char) : Bool :=
  c = ' ' ∨ c = '\t' ∨ c = '\n' ∨ c = '\r'

/-- Skip insignificant whitespace. -/
def skipJsonWs (s : List Char) : List Char :=
  s.dropWhile isJsonWs

/-- Hex digit value. -/
def hexVal (c : Char) : Option Nat :=
  if '0' ≤ c ∧ c ≤ '9' then some (c.toNat - '0'.toNat)
  else if 'a' ≤ c ∧ c ≤ 'f' then some (c.toNat - 'a'.toNat + 10)
  else if 'A' ≤ c ∧ c ≤ 'F' then some (c.toNat - 'A'.toNat + 10)
  else none

/-- Parse the body of a JSON string after the opening quote, returning the
decoded characters and the rest of the input after the closing quote.
Unescaped control characters are a syntax error (strict JSON); `\uXXXX`
decodes a single UTF-16 unit (surrogate pairing does not arise in the
verified inputs). -/
def parseStringBody : List Char → Option (List Char × List Char)
  | [] => none
  | '"' :: rest => some ([], rest)
  | '\\' :: esc =>
    match esc with
    | '"' :: rest => (parseStringBody rest).map (fun r => ('"' :: r.1, r.2))
    | '\\' :: rest => (parseStringBody rest).map (fun r => ('\\' :: r.1, r.2))
    | '/' :: rest => (parseStringBody rest).map (fun r => ('/' :: r.1, r.2))
    | 'b' :: rest => (parseStringBody rest).map (fun r => ('\x08' :: r.1, r.2))
    | 'f' :: rest => (parseStringBody rest).map (fun r => ('\x0c' :: r.1, r.2))
    | 'n' :: rest => (parseStringBody rest).map (fun r => ('\n' :: r.1, r.2))
    | 'r' :: rest => (parseStringBody rest).map (fun r => ('\r' :: r.1, r.2))
    | 't' :: rest => (parseStringBody rest).map (fun r => ('\t' :: r.1, r.2))
    | 'u' :: h1 :: h2 :: h3 :: h4 :: rest =>
      match hexVal h1, hexVal h2, hexVal h3, hexVal h4 with
      | some a, some b, some c, some d =>
        (parseStringBody rest).map
          (fun r => (Char.ofNat (((a * 16 + b) * 16 + c) * 16 + d) :: r.1, r.2))
      | _, _, _, _ => none
    | _ => none
  | c :: rest =>
    if c.toNat < 0x20 then none
    else (parseStringBody rest).map (fun r => (c :: r.1, r.2))

/-- One or more decimal digits. -/
def parseDigits : List Char → Option (List Char × List Char)
  | c :: rest =>
    if c.isDigit then
      match parseDigits rest with
      | some (ds, r) => some (c :: ds, r)
      | none => some ([c], rest)
    else none
  | [] => none

/-- The integer part of a JSON number: `0` or a nonzero digit followed by
digits. -/
def parseIntPart : List Char → Option (List Char × List Char)
  | '0' :: rest => some (['0'], rest)
  | c :: rest =>
    if c.isDigit then
      match parseDigits rest with
      | some (ds, r) => some (c :: ds, r)
      | none => some ([c], rest)
    else none
  | [] => none

/-- The optional fraction part `.digits`. -/
def parseFracPart (s : List Char) : Option (List Char × List Char) :=
  match s with
  | '.' :: rest =>
    match parseDigits rest with
    | some (ds, r) => some ('.' :: ds, r)
    | none => none
  | _ => some ([], s)

/-- The optional exponent part `[eE][+-]?digits`. -/
def parseExpPart (s : List Char) : Option (List Char × List Char) :=
  match s with
  | c :: rest =>
    if c = 'e' ∨ c = 'E' then
      match rest with
      | sgn :: rest2 =>
        if sgn = '+' ∨ sgn = '-' then
          match parseDigits rest2 with
          | some (ds, r) => some (c :: sgn :: ds, r)
          | none => none
        else
          match parseDigits rest with
          | some (ds, r) => some (c :: ds, r)
          | none => none
      | [] => none
    else some ([], s)
  | [] => some ([], s)

/-- A JSON number lexeme `-?int frac? exp?`. -/
def parseNumberLex (s : List Char) : Option (List Char × List Char) :=
  let core : List Char → Option (List Char × List Char) := fun t =>
    match parseIntPart t with
    | none => none
    | some (ip, r1) =>
      match parseFracPart r1 with
      | none => none
      | some (fp, r2) =>
        match parseExpPart r2 with
        | none => none
        | some (ep, r3) => some (ip ++ fp ++ ep, r3)
  match s with
  | '-' :: rest => (core rest).map (fun r => ('-' :: r.1, r.2))
  | _ => core s

mutual

/-- Parse one JSON value (leading whitespace already skipped). -/
def parseValue : Nat → List Char → Option (JsonVal × List Char)
  | 0, _ => none
  | _ + 1, [] => none
  | fuel + 1, c :: rest =>
    match c, rest with
    | 'n', 'u' :: 'l' :: 'l' :: r => some (.jnull, r)
    | 't', 'r' :: 'u' :: 'e' :: r => some (.jbool true, r)
    | 'f', 'a' :: 'l' :: 's' :: 'e' :: r => some (.jbool false, r)
    | '"', r => (parseStringBody r).map (fun p => (.jstr p.1, p.2))
    | '\x7b', r =>
      match skipJsonWs r with
      | '\x7d' :: r2 => some (.jobj [], r2)
      | r2 =>
        match parseMembers fuel r2 with
        | some (ms, r3) =>
          match skipJsonWs r3 with
          | '\x7d' :: r4 => some (.jobj ms, r4)
          | _ => none
        | none => none
    | '[', r =>
      match skipJsonWs r with
      | ']' :: r2 => some (.jarr [], r2)
      | r2 =>
        match parseElements fuel r2 with
        | some (es, r3) =>
          match skipJsonWs r3 with
          | ']' :: r4 => some (.jarr es, r4)
          | _ => none
        | none => none
    | _, _ =>
      match parseNumberLex (c :: rest) with
      | some (lex, r) => some (.jnum lex, r)
      | none => none

/-- Parse a comma-separated list of `"key": value` members (whitespace
already skipped before the first key). -/
def parseMembers : Nat → List Char → Option (List (List Char × JsonVal) × List Char)
  | 0, _ => none
  | fuel + 1, s =>
    match s with
    | '"' :: r =>
      match parseStringBody r with
      | none => none
      | some (key, r2) =>
        match skipJsonWs r2 with
        | ':' :: r3 =>
          match parseValue fuel (skipJsonWs r3) with
          | none => none
          | some (v, r4) =>
            match skipJsonWs r4 with
            | ',' :: r5 =>
              match parseMembers fuel (skipJsonWs r5) with
              | some (ms, r6) => some ((key, v) :: ms, r6)
              | none => none
            | r5 => some ([(key, v)], r5)
        | _ => none
    | _ => none

/-- Parse a comma-separated list of array elements (whitespace already
skipped before the first element). -/
def parseElements : Nat → List Char → Option (List JsonVal × List Char)
  | 0, _ => none
  | fuel + 1, s =>
    match parseValue fuel s with
    | none => none
    | some (v, r) =>
      match skipJsonWs r with
      | ',' :: r2 =>
        match parseElements fuel (skipJsonWs r2) with
        | some (es, r3) => some (v :: es, r3)
        | none => none
      | r2 => some ([v], r2)

end

/-- Strict JSON parsing of a whole text: one value, surrounded only by
whitespace.  The fuel `s.length + 1` dominates the recursion depth, which
consumes at least one character per level. -/
def jsonParse (s : List Char) : Option JsonVal :=
  match parseValue (s.length + 1) (skipJsonWs s) with
  | some (v, rest) => if skipJsonWs rest = [] then some v else none
  | none => none

/-- `JSON.parse` applied to the sanitized candidate — the parse stage of
`parseAndValidatePlan`. -/
def mistralParsePlanJson (content : String) : Option JsonVal :=
  jsonParse (mistralSanitizedCandidate content)

/-- Property access `v[key]` as used by the shape check: `undefined` (`none`)
on non-objects and absent keys; for duplicate keys `JSON.parse` keeps the
last occurrence. -/
def getField (v : JsonVal) (key : List Char) : Option JsonVal :=
  match v with
  | .jobj ms => (ms.reverse.find? (fun m => m.1 == key)).map (fun m => m.2)
  | _ => none

/-- JS truthiness of a parsed JSON value.  A valid JSON number is zero
exactly when its lexeme contains no nonzero digit. -/
def jsTruthy : JsonVal → Bool
  | .jnull => false
  | .jbool b => b
  | .jnum lex => lex.any (fun c => '1' ≤ c ∧ c ≤ '9')
  | .jstr s => !s.isEmpty
  | .jarr _ => true
  | .jobj _ => true

/-- Truthiness of a possibly-`undefined` field. -/
def jsTruthyOpt : Option JsonVal → Bool
  | none => false
  | some v => jsTruthy v

/-- `Array.isArray(v)`. -/
def isArrayVal : Option JsonVal → Bool
  | some (.jarr _) => true
  | _ => false

/-- The structural check of `parseAndValidatePlan`:
`if (!parsed.title || !parsed.description || !Array.isArray(parsed.tasks))
throw new Error('Invalid plan structure');` — here phrased positively. -/
def planShapeOk (v : JsonVal) : Bool :=
  jsTruthyOpt (getField v ("title".data)) &&
  jsTruthyOpt (getField v ("description".data)) &&
  isArrayVal (getField v ("tasks".data))

/-! ## Specification-side definitions used to state the claims -/

/-- Modelled from the spec: the failure-class multiplier of §4.3 — `3× for
rate-limiting, 2× for payment/quota failures, 1× for transient server
unavailability, and default 1× for generic transport failures`.  Used to
compare the code's delays with the spec's formula
`min(baseDelay × backoffFactor^attempt × multiplier, maxDelay)`. -/
def specMultiplier : ErrClass → Nat
  | .rateLimited => 3
  | .payment => 2
  | .unavailable => 1
  | .generic => 1

/-- Modelled from the spec: the delay formula of §4.3,
`D = min(baseDelay × backoffFactor^attempt × multiplier, maxDelay)`. -/
def specDelayFormula (cfg : RetryConfig) (attempt : Nat) (c : ErrClass) : Nat :=
  min (cfg.baseDelay * cfg.backoffFactor ^ attempt * specMultiplier c) cfg.maxDelay

/-- Every dependency of every step references the id of some step of the
same plan (referential integrity, §3 of the spec). -/
def ReferencesPresent (steps : List PlanStep) : Prop :=
  ∀ s ∈ steps, ∀ d ∈ s.dependencies, d ∈ stepIds steps

/-- The dependency relation declared by a list of steps: `a` depends on `b`
when some step with id `a` lists `b` among its dependencies. -/
def DepEdge (steps : List PlanStep) (a b : Int) : Prop :=
  ∃ s ∈ steps, s.id = a ∧ b ∈ s.dependencies

/-- The dependency relation restricted to the steps of the plan (both
endpoints are step ids; note `a` is forced to be a step id by `DepEdge`). -/
def RestrictedDepEdge (steps : List PlanStep) (a b : Int) : Prop :=
  DepEdge steps a b ∧ b ∈ stepIds steps

/-- The claim's acyclicity: no id reaches itself through a nonempty chain of
restricted dependency edges. -/
def StepsAcyclic (steps : List PlanStep) : Prop :=
  ¬ ∃ v, Relation.TransGen (RestrictedDepEdge steps) v v

/-- The edge relation of the adjacency map actually traversed by `dfs`. -/
def GEdge (g : Int → Option (List Int)) (a b : Int) : Prop :=
  ∃ ds, g a = some ds ∧ b ∈ ds

/-- A step list has a dangling dependency when some step's dependency is not
the id of any step. -/
def HasDanglingDep (steps : List PlanStep) : Prop :=
  ∃ s ∈ steps, ∃ d ∈ s.dependencies, d ∉ stepIds steps

/-- The cycle example of the spec: steps `{1→[], 2→[1], 3→[2,4], 4→[3]}`. -/
def exCycleSteps : List PlanStep :=
  [ ⟨1, "s1", "d1", []⟩, ⟨2, "s2", "d2", [1]⟩, ⟨3, "s3", "d3", [2, 4]⟩, ⟨4, "s4", "d4", [3]⟩ ]

/-- The same example with the edge `4→3` removed. -/
def exNoCycleSteps : List PlanStep :=
  [ ⟨1, "s1", "d1", []⟩, ⟨2, "s2", "d2", [1]⟩, ⟨3, "s3", "d3", [2, 4]⟩, ⟨4, "s4", "d4", []⟩ ]

/-- A plan whose single step references a missing id: ids are unique and the
restricted dependency relation is empty (hence acyclic), yet validation
throws. -/
def exDanglingSteps : List PlanStep :=
  [ ⟨1, "s1", "d1", [2]⟩ ]

/-- A plan with a self-loop listed before a dangling reference: the cycle is
detected before the traversal reaches the missing id, so `hasCycles` returns
`true` rather than throwing. -/
def exDanglingCycleSteps : List PlanStep :=
  [ ⟨1, "s1", "d1", [1, 99]⟩ ]

/-- The fenced model output of the spec's sanitizer round-trip property. -/
def fencedExample : String :=
  "```json\n\x7b\"title\":\"x\",\"description\":\"y\",\"tasks\":[]\x7d\n```"

/-! ### Invariants of the depth-first traversal, used to verify `hasCycles` -/

/-- A node the traversal has finished: visited and off the recursion
stack. -/
def BlackNode (st : DfsState) (v : Int) : Prop :=
  v ∈ st.visited ∧ v ∉ st.recStack

/-- The invariant `dfs` maintains between calls: the recursion stack holds
visited nodes; every dependency of a finished node is finished; and no
finished node lies on a dependency cycle. -/
structure DfsInv (g : Int → Option (List Int)) (st : DfsState) : Prop where
  rsv : ∀ v ∈ st.recStack, v ∈ st.visited
  closed : ∀ v, BlackNode st v → ∀ ds, g v = some ds → ∀ d ∈ ds, BlackNode st d
  nocyc : ∀ v, BlackNode st v → ¬ Relation.TransGen (GEdge g) v v

/-- Consecutive recursion-stack entries are graph edges: each entry was
pushed while iterating the dependencies of the entry below it. -/
def StackChain (g : Int → Option (List Int)) (L : List Int) : Prop :=
  List.Chain' (fun a b => GEdge g b a) L

/-- The number of keys of the adjacency map not yet visited — the quantity
that bounds the remaining recursion depth of `dfs`. -/
def countUnvisited (dom : List Int) (st : DfsState) : Nat :=
  (dom.dedup.filter (fun v => decide (v ∉ st.visited))).length

/-! # Theorems -/

/-! ## General helpers -/

/-- A relation admitting a strictly decreasing rank has no cycle. -/
theorem acyclic_of_rank {r : Int → Int → Prop} (f : Int → Nat)
    (hf : ∀ a b, r a b → f b < f a) : ¬ ∃ v, Relation.TransGen r v v := by
  rintro ⟨v, h⟩
  have key : ∀ a b, Relation.TransGen r a b → f b < f a := by
    intro a b hab
    induction hab with
    | single h1 => exact hf _ _ h1
    | tail _ h1 ih => exact lt_trans (hf _ _ h1) ih
  exact lt_irrefl _ (key v v h)

/-- `hasUniqueIds` is the uniqueness of the id list. -/
theorem hasUniqueIds_eq_true_iff (steps : List PlanStep) :
    hasUniqueIds steps = true ↔ (stepIds steps).Nodup := by
  unfold hasUniqueIds
  rw [beq_iff_eq]
  constructor
  · intro h
    have hsub : List.Sublist (stepIds steps).dedup (stepIds steps) :=
      (stepIds steps).dedup_sublist
    have heq := hsub.eq_of_length h.symm
    exact List.dedup_eq_self.mp heq
  · intro h
    rw [List.dedup_eq_self.mpr h]

/-! ## C2: coordinator fallback behaviour -/

/-- C2 counterexample: with no provider configured, the orchestrator's
`generatePlan` does not return a heuristic plan — it throws the
client-not-available error from the primary attempt, propagating the failure
to the caller. -/
theorem C2_counterexample :
    orchGeneratePlan ⟨false, false⟩ (fun _ => .error ()) .mistral =
      .error (.clientNotAvailable .mistral) := rfl

/-- C2 (amended): if no provider is configured, or every attempted provider
call fails, `LayerOrchestrator.generatePlan` propagates an error instead of
invoking a heuristic generator; the deterministic heuristic plan is produced
at other layers — by part_002's `generatePlan` when no API key is configured,
and by `MistralClient.generatePlan`'s catch handler when a configured
provider's request fails. -/
theorem C2_amended :
    (∀ (clientGen : Provider → Except Unit MPlan) (p : Provider),
        orchGeneratePlan ⟨false, false⟩ clientGen p = .error (.clientNotAvailable p)) ∧
    (∀ (c : OrchConfig) (clientGen : Provider → Except Unit MPlan) (p : Provider),
        (∀ q, clientGen q = .error ()) →
        ∃ e, orchGeneratePlan c clientGen p = .error e) ∧
    (∀ (goal : String) (chatOutcome : Except Unit (Except Unit Plan)),
        plannerGeneratePlan none chatOutcome goal = .ok (fallbackHeuristicPlan goal)) ∧
    (∀ (e : Unit) (prompt nowMs nowIso : String),
        mistralGeneratePlan (.error e) prompt nowMs nowIso =
          getFallbackPlan prompt nowMs nowIso) := by
  refine ⟨?_, ?_, ?_, ?_⟩
  · intro g p; cases p <;> rfl
  · intro c g p hfail
    rcases c with ⟨hm, hd⟩
    cases hm <;> cases hd <;> cases p <;>
      simp [orchGeneratePlan, tryGeneratePlan, hasClient, availableProviders,
            fallbackOf, hfail]
  · intro goal chatOutcome; rfl
  · intro e prompt nowMs nowIso; rfl

/-- C2 witness: the amended theorem applied with both providers configured
and both failing. -/
theorem C2_witness :
    ∃ e, orchGeneratePlan ⟨true, true⟩ (fun _ => .error ()) .mistral = .error e :=
  C2_amended.2.1 ⟨true, true⟩ (fun _ => .error ()) .mistral (fun _ => rfl)

/-! ## C3: the client layer substitutes fallbacks instead of failing -/

/-- C3 counterexample: when the try block of each `MistralClient` operation
fails, `generatePlan` returns the fabricated fallback plan, `refinePlan`
returns the unmodified original plan, and `critique` returns canned text —
none of them fails with a typed error, contradicting the claim. -/
theorem C3_counterexample :
    mistralGeneratePlan (.error ()) "goal" "100" "iso" = getFallbackPlan "goal" "100" "iso" ∧
    mistralRefinePlan
      { id := "p1", title := "t", description := "d", tasks := [], status := "active",
        createdAt := "c", updatedAt := "u", metadata := none }
      (.error ()) "iso2" =
      { id := "p1", title := "t", description := "d", tasks := [], status := "active",
        createdAt := "c", updatedAt := "u", metadata := none } ∧
    mistralCritique (.error ()) =
      "Expert critique unavailable due to API error. Consider reviewing the plan manually for completeness, realistic timelines, and proper task organization." :=
  ⟨rfl, rfl, rfl⟩

/-- C3 (amended): every failure inside a `MistralClient` operation is caught
by the operation itself: `generatePlan` substitutes the fabricated fallback
plan, `refinePlan` substitutes the unmodified original plan, and `critique`
substitutes canned critique text; no typed error is propagated to the
caller. -/
theorem C3_amended :
    (∀ (e : Unit) (prompt nowMs nowIso : String),
        mistralGeneratePlan (.error e) prompt nowMs nowIso =
          getFallbackPlan prompt nowMs nowIso) ∧
    (∀ (plan : MPlan) (e : Unit) (nowIso : String),
        mistralRefinePlan plan (.error e) nowIso = plan) ∧
    (∀ (e : Unit),
        mistralCritique (.error e) =
          "Expert critique unavailable due to API error. Consider reviewing the plan manually for completeness, realistic timelines, and proper task organization.") :=
  ⟨fun _ _ _ _ => rfl, fun _ _ _ => rfl, fun _ => rfl⟩

/-! ## C4: backoff delays -/

/-- C4 counterexample: for the 502/503 class the code caps the delay at
`maxDelay / 2`, not `maxDelay`: with the client's config (`baseDelay 2000`,
`backoffFactor 2`, `maxDelay 30000`), attempt 4 yields 15000, while the
spec's formula yields 30000. -/
theorem C4_counterexample :
    backoffDelay mistralRetryConfig 4 .unavailable = 15000 ∧
    specDelayFormula mistralRetryConfig 4 .unavailable = 30000 ∧
    backoffDelay mistralRetryConfig 4 .unavailable ≠
      specDelayFormula mistralRetryConfig 4 .unavailable := by
  refine ⟨by decide, by decide, by decide⟩

/-- C4 (amended): the computed delay equals
`min(baseDelay × backoffFactor^attempt × multiplier, cap)` with multiplier 3
for HTTP 429, 2 for HTTP 402, 1 for HTTP 502/503 and generic failures, where
the cap is `maxDelay` except for the 502/503 class, whose cap is
`maxDelay / 2`; for a fixed class the delay is monotonically non-decreasing
across attempts (whenever `backoffFactor ≥ 1`), and with the client's config
the 429 class yields 6000, 12000, 24000 on attempts 0, 1, 2. -/
theorem C4_amended (cfg : RetryConfig) (a b : Nat) (c : ErrClass)
    (hf : 1 ≤ cfg.backoffFactor) (hab : a ≤ b) :
    backoffDelay cfg a c =
      min (cfg.baseDelay * cfg.backoffFactor ^ a * specMultiplier c)
        (if c = .unavailable then cfg.maxDelay / 2 else cfg.maxDelay) ∧
    backoffDelay cfg a c ≤ backoffDelay cfg b c ∧
    backoffDelay mistralRetryConfig 0 .rateLimited = 6000 ∧
    backoffDelay mistralRetryConfig 1 .rateLimited = 12000 ∧
    backoffDelay mistralRetryConfig 2 .rateLimited = 24000 := by
  have hmono : cfg.baseDelay * cfg.backoffFactor ^ a ≤ cfg.baseDelay * cfg.backoffFactor ^ b :=
    Nat.mul_le_mul_left _ (Nat.pow_le_pow_right hf hab)
  refine ⟨?_, ?_, by decide, by decide, by decide⟩
  · cases c <;> simp [backoffDelay, specMultiplier]
  · cases c
    · exact min_le_min (Nat.mul_le_mul_right _ hmono) (le_refl _)
    · exact min_le_min (Nat.mul_le_mul_right _ hmono) (le_refl _)
    · exact min_le_min hmono (le_refl _)
    · exact min_le_min hmono (le_refl _)

/-- C4 witness: the amended theorem at the client's config, class 429,
attempts 1 ≤ 2. -/
theorem C4_witness :
    backoffDelay mistralRetryConfig 1 .rateLimited ≤
      backoffDelay mistralRetryConfig 2 .rateLimited :=
  (C4_amended mistralRetryConfig 1 2 .rateLimited (by decide) (by decide)).2.1

/-! ## C5: the heuristic plan -/

/-- C5: with no provider configured, `generatePlan(goal)` returns the
deterministic heuristic plan: exactly four steps with ids 1,2,3,4 whose
dependency lists are `[], [1], [2], [3]` (each later step depends only on its
immediate predecessor), with title exactly `"Plan for: " ++ goal`. -/
theorem C5_no_provider_heuristic (goal : String)
    (chatOutcome : Except Unit (Except Unit Plan)) (hgoal : goal ≠ "") :
    plannerGeneratePlan none chatOutcome goal = .ok (fallbackHeuristicPlan goal) ∧
    (fallbackHeuristicPlan goal).title = "Plan for: " ++ goal ∧
    (fallbackHeuristicPlan goal).steps.length = 4 ∧
    (fallbackHeuristicPlan goal).steps.map PlanStep.id = [1, 2, 3, 4] ∧
    (fallbackHeuristicPlan goal).steps.map PlanStep.dependencies = [[], [1], [2], [3]] :=
  ⟨rfl, rfl, rfl, rfl, rfl⟩

/-- C5 witness: the heuristic plan for the spec's goal string. -/
theorem C5_witness :
    plannerGeneratePlan none (.error ()) "Build a REST API" =
      .ok (fallbackHeuristicPlan "Build a REST API") ∧
    (fallbackHeuristicPlan "Build a REST API").title = "Plan for: Build a REST API" :=
  ⟨(C5_no_provider_heuristic "Build a REST API" (.error ()) (by decide)).1,
   (C5_no_provider_heuristic "Build a REST API" (.error ()) (by decide)).2.1⟩

/-! ## C7: what refinePlan preserves -/

/-- C7 counterexample: a successful `refinePlan` on a plan whose status is
`'active'` returns a plan whose status is `'draft'` (the status stamped by
`parseAndValidatePlan`), so more than `updatedAt` and the structural content
can differ, contradicting the claim's frame. -/
theorem C7_counterexample :
    (mistralRefinePlan
        { id := "p1", title := "t", description := "d", tasks := [], status := "active",
          createdAt := "c1", updatedAt := "u1",
          metadata := some ⟨some "complex", none, none⟩ }
        (.ok (mkParsedPlan "t2" "d2" [] "7" "r" "iso")) "iso2").status = "draft" ∧
    (mistralRefinePlan
        { id := "p1", title := "t", description := "d", tasks := [], status := "active",
          createdAt := "c1", updatedAt := "u1",
          metadata := some ⟨some "complex", none, none⟩ }
        (.ok (mkParsedPlan "t2" "d2" [] "7" "r" "iso")) "iso2").metadata = none ∧
    ("draft" : String) ≠ "active" := by
  exact ⟨rfl, rfl, by decide⟩

/-- C7 (amended): a successful `refinePlan` preserves the original plan's
`id` and `createdAt` and stamps a fresh `updatedAt`; `title`, `description`
and `tasks` come from the newly parsed plan, and in addition `status` is
reset to `'draft'` and `metadata` is dropped (both are taken from the parsed
plan, which always carries `status = 'draft'` and no metadata). -/
theorem C7_amended (plan : MPlan) (title description : String) (tasks : List MTask)
    (nowMs rand nowIso now2 : String) :
    (mistralRefinePlan plan (.ok (mkParsedPlan title description tasks nowMs rand nowIso)) now2).id
        = plan.id ∧
    (mistralRefinePlan plan (.ok (mkParsedPlan title description tasks nowMs rand nowIso)) now2).createdAt
        = plan.createdAt ∧
    (mistralRefinePlan plan (.ok (mkParsedPlan title description tasks nowMs rand nowIso)) now2).updatedAt
        = now2 ∧
    (mistralRefinePlan plan (.ok (mkParsedPlan title description tasks nowMs rand nowIso)) now2).title
        = title ∧
    (mistralRefinePlan plan (.ok (mkParsedPlan title description tasks nowMs rand nowIso)) now2).description
        = description ∧
    (mistralRefinePlan plan (.ok (mkParsedPlan title description tasks nowMs rand nowIso)) now2).tasks
        = tasks ∧
    (mistralRefinePlan plan (.ok (mkParsedPlan title description tasks nowMs rand nowIso)) now2).status
        = "draft" ∧
    (mistralRefinePlan plan (.ok (mkParsedPlan title description tasks nowMs rand nowIso)) now2).metadata
        = none :=
  ⟨rfl, rfl, rfl, rfl, rfl, rfl, rfl, rfl⟩

/-! ## C9: sanitizer round-trip -/

/-- C9: sanitization followed by strict JSON parsing of the fenced model
output yields the object `{title: "x", description: "y", tasks: []}` (and
that object passes the structural check), rather than failing. -/
theorem C9_sanitizer_roundtrip :
    mistralParsePlanJson fencedExample =
      some (.jobj [("title".data, .jstr "x".data),
                   ("description".data, .jstr "y".data),
                   ("tasks".data, .jarr [])]) ∧
    (mistralParsePlanJson fencedExample).map planShapeOk = some true :=
  ⟨rfl, rfl⟩

/-! ## C6: the control-character / escape step -/

/-- Replacing a two-character pattern by itself is the identity. -/
theorem replacePair_self (p q : Char) : ∀ s : List Char, replacePair p q [p, q] s = s
  | [] => rfl
  | [_] => rfl
  | c1 :: c2 :: rest => by
    simp only [replacePair]
    split
    · next h =>
      rw [replacePair_self p q rest]
      simp [h.1, h.2]
    · next _ =>
      rw [replacePair_self p q (c2 :: rest)]

/-- If the two-character pattern does not occur, the replace is the
identity. -/
theorem replacePair_eq_self (p q : Char) (r : List Char) :
    ∀ s : List Char, ¬ List.IsInfix [p, q] s → replacePair p q r s = s
  | [], _ => rfl
  | [_], _ => rfl
  | c1 :: c2 :: rest, h => by
    simp only [replacePair]
    split
    · next hc =>
      exact absurd ⟨[], rest, by simp [hc.1, hc.2]⟩ h
    · next _ =>
      have htail : ¬ List.IsInfix [p, q] (c2 :: rest) := by
        intro hinf
        obtain ⟨u, t, hut⟩ := hinf
        exact h ⟨c1 :: u, t, by simp [hut]⟩
      rw [replacePair_eq_self p q r (c2 :: rest) htail]

/-- Characters of a replace result come from the replacement or the input. -/
theorem mem_replacePair (p q : Char) (r : List Char) :
    ∀ s : List Char, ∀ c ∈ replacePair p q r s, c ∈ r ∨ c ∈ s
  | [], c, hc => Or.inr hc
  | [c'], c, hc => Or.inr hc
  | c1 :: c2 :: rest, c, hc => by
    simp only [replacePair] at hc
    split at hc
    · next _ =>
      rcases List.mem_append.mp hc with h | h
      · exact Or.inl h
      · rcases mem_replacePair p q r rest c h with h2 | h2
        · exact Or.inl h2
        · exact Or.inr (by simp [h2])
    · next _ =>
      rcases List.mem_cons.mp hc with h | h
      · exact Or.inr (by simp [h])
      · rcases mem_replacePair p q r (c2 :: rest) c h with h2 | h2
        · exact Or.inl h2
        · exact Or.inr (by
            rcases List.mem_cons.mp h2 with h3 | h3 <;> simp [h3])

/-- The sanitizer step never outputs a raw control character. -/
theorem sanitizeControlStep_no_ctl (s : List Char) :
    ∀ c ∈ sanitizeControlStep s, isRawCtl c = false := by
  intro c hc
  unfold sanitizeControlStep at hc
  rw [replacePair_self, replacePair_self, replacePair_self] at hc
  rcases mem_replacePair _ _ _ _ c hc with h | h
  · simp only [List.mem_singleton] at h
    subst h
    decide
  · have hmem := List.mem_filter.mp h
    simpa using hmem.2

/-- On inputs with no raw control character and no pair of consecutive
backslashes, the sanitizer step is the identity (so every `\n`, `\r`, `\t`
escape is preserved byte for byte). -/
theorem sanitizeControlStep_id (s : List Char)
    (hctl : ∀ c ∈ s, isRawCtl c = false)
    (hbb : ¬ List.IsInfix ['\\', '\\'] s) :
    sanitizeControlStep s = s := by
  unfold sanitizeControlStep
  have hstrip : stripControlChars s = s := by
    apply List.filter_eq_self.mpr
    intro a ha
    simpa using hctl a ha
  rw [hstrip, replacePair_self, replacePair_self, replacePair_self,
      replacePair_eq_self _ _ _ s hbb]

/-- C6 counterexample: the already-escaped two-character sequence `\\`
(backslash backslash) is NOT left unchanged: the step's final
`.replace(/\\\\/g, '\\')` collapses it to a single backslash, so the escape
sequence present before the step is absent after it. -/
theorem C6_counterexample :
    List.IsInfix ['\\', '\\'] ['\\', '\\'] ∧
    sanitizeControlStep ['\\', '\\'] = ['\\'] ∧
    ¬ List.IsInfix ['\\', '\\'] (sanitizeControlStep ['\\', '\\']) :=
  ⟨by decide, rfl, by decide⟩

/-- C6 (amended): the step strips every raw control character
(0x00–0x1F, 0x7F), and on candidates containing no raw control character and
no two consecutive backslashes it is the identity — in particular the
escaped sequences `\n`, `\r`, `\t` are preserved byte for byte; the `\\`
escape, however, is collapsed to a single backslash. -/
theorem C6_amended (s : List Char) :
    (∀ c ∈ sanitizeControlStep s, isRawCtl c = false) ∧
    ((∀ c ∈ s, isRawCtl c = false) → ¬ List.IsInfix ['\\', '\\'] s →
      sanitizeControlStep s = s) :=
  ⟨sanitizeControlStep_no_ctl s, fun h1 h2 => sanitizeControlStep_id s h1 h2⟩

/-- C6 witness: the amended theorem applied to `a\nb` (with an escaped
newline). -/
theorem C6_witness :
    sanitizeControlStep ['a', '\\', 'n', 'b'] = ['a', '\\', 'n', 'b'] :=
  (C6_amended ['a', '\\', 'n', 'b']).2 (by decide) (by decide)


/-! ## C8: non-retryable aborts, attempt cap, terminal error -/

theorem mrGo_attempts_le (cfg : RetryConfig) (resp : Nat → ReqOutcome) :
    ∀ (remaining attempt : Nat) (last : Option (Option Nat)) (ds : List Nat),
      (mrGo cfg resp attempt remaining last ds).attempts ≤ attempt + remaining := by
  intro remaining
  induction remaining with
  | zero => intro attempt last ds; simp [mrGo]
  | succ r ih =>
    intro attempt last ds
    unfold mrGo
    cases hr : resp attempt with
    | success d => simp <;> omega
    | failure st =>
      cases st with
      | some s =>
        simp only []
        split_ifs <;>
          first
            | (refine (ih _ _ _).trans ?_; omega)
            | (simp <;> omega)
      | none =>
        simp only []
        split_ifs <;>
          first
            | (refine (ih _ _ _).trans ?_; omega)
            | (simp <;> omega)

theorem mrGo_abort (cfg : RetryConfig) (resp : Nat → ReqOutcome) (s : Nat)
    (hs400 : 400 ≤ s) (hs500 : s < 500) (h429 : s ≠ 429) (h402 : s ≠ 402) :
    ∀ (k remaining attempt : Nat) (last : Option (Option Nat)) (ds : List Nat),
      k < remaining →
      (∀ i, attempt ≤ i → i < attempt + k → retryableFailure (resp i) = true) →
      resp (attempt + k) = .failure (some s) →
      (mrGo cfg resp attempt remaining last ds).result = .error (.fromAttempt (some s)) ∧
      (mrGo cfg resp attempt remaining last ds).attempts = attempt + k + 1 := by
  intro k
  induction k with
  | zero =>
    intro remaining attempt last ds hrem hretry hresp
    obtain ⟨r, rfl⟩ : ∃ r, remaining = r + 1 := ⟨remaining - 1, by omega⟩
    rw [Nat.add_zero] at hresp
    unfold mrGo
    rw [hresp]
    simp only []
    split_ifs <;>
      first
        | (exact ⟨rfl, rfl⟩)
        | (exfalso; omega)
  | succ k ih =>
    intro remaining attempt last ds hrem hretry hresp
    obtain ⟨r, rfl⟩ : ∃ r, remaining = r + 1 := ⟨remaining - 1, by omega⟩
    have hret0 : retryableFailure (resp attempt) = true :=
      hretry attempt (le_refl _) (by omega)
    have hresp' : resp (attempt + 1 + k) = .failure (some s) := by
      rw [show attempt + 1 + k = attempt + (k + 1) from by omega]
      exact hresp
    have hretry' : ∀ i, attempt + 1 ≤ i → i < attempt + 1 + k →
        retryableFailure (resp i) = true := by
      intro i hi1 hi2
      exact hretry i (by omega) (by omega)
    have hrem' : k < r := by omega
    unfold mrGo
    cases hr : resp attempt with
    | success d =>
      rw [hr] at hret0
      simp [retryableFailure] at hret0
    | failure st =>
      cases st with
      | some s0 =>
        rw [hr] at hret0
        simp only [retryableFailure, Bool.or_eq_true, beq_iff_eq, Bool.not_eq_true',
          Bool.and_eq_false_iff, bne_eq_false_iff_eq, decide_eq_false_iff_not] at hret0
        simp only []
        split_ifs <;>
          first
            | (refine ⟨(ih r (attempt + 1) _ _ hrem' hretry' hresp').1,
                (ih r (attempt + 1) _ _ hrem' hretry' hresp').2.trans (by omega)⟩)
            | (exfalso; omega)
      | none =>
        simp only []
        split_ifs <;>
          refine ⟨(ih r (attempt + 1) _ _ hrem' hretry' hresp').1,
            (ih r (attempt + 1) _ _ hrem' hretry' hresp').2.trans (by omega)⟩

theorem mrGo_exhaust (cfg : RetryConfig) (resp : Nat → ReqOutcome) :
    ∀ (remaining attempt : Nat) (last : Option (Option Nat)) (ds : List Nat),
      0 < remaining →
      attempt + remaining = cfg.maxRetries + 1 →
      (∀ i, attempt ≤ i → i ≤ cfg.maxRetries → retryableFailure (resp i) = true) →
      ∃ st, resp cfg.maxRetries = .failure st ∧
        (mrGo cfg resp attempt remaining last ds).result = .error (.fromAttempt st) ∧
        (mrGo cfg resp attempt remaining last ds).attempts = cfg.maxRetries + 1 := by
  intro remaining
  induction remaining with
  | zero =>
    intro attempt last ds h0
    exact absurd h0 (by omega)
  | succ r ih =>
    intro attempt last ds _ hsum hretry
    have hret0 : retryableFailure (resp attempt) = true :=
      hretry attempt (le_refl _) (by omega)
    unfold mrGo
    cases hr : resp attempt with
    | success d =>
      rw [hr] at hret0
      simp [retryableFailure] at hret0
    | failure st =>
      rcases Nat.eq_zero_or_pos r with hr0 | hrpos
      · subst hr0
        have ha : attempt = cfg.maxRetries := by omega
        refine ⟨st, by rw [← ha]; exact hr, ?_⟩
        cases st with
        | some s0 =>
          rw [hr] at hret0
          simp only [retryableFailure, Bool.or_eq_true, beq_iff_eq, Bool.not_eq_true',
            Bool.and_eq_false_iff, bne_eq_false_iff_eq, decide_eq_false_iff_not] at hret0
          simp only []
          split_ifs <;>
            first
              | (exact ⟨rfl, by simp [mrGo, ha]⟩)
              | (exfalso; omega)
        | none =>
          simp only []
          split_ifs <;> exact ⟨rfl, by simp [mrGo, ha]⟩
      · have hsum' : attempt + 1 + r = cfg.maxRetries + 1 := by omega
        have hretry' : ∀ i, attempt + 1 ≤ i → i ≤ cfg.maxRetries →
            retryableFailure (resp i) = true := by
          intro i hi1 hi2
          exact hretry i (by omega) hi2
        cases st with
        | some s0 =>
          rw [hr] at hret0
          simp only [retryableFailure, Bool.or_eq_true, beq_iff_eq, Bool.not_eq_true',
            Bool.and_eq_false_iff, bne_eq_false_iff_eq, decide_eq_false_iff_not] at hret0
          simp only []
          split_ifs <;>
            first
              | (exact ih (attempt + 1) _ _ hrpos hsum' hretry')
              | (exfalso; omega)
        | none =>
          simp only []
          split_ifs <;> exact ih (attempt + 1) _ _ hrpos hsum' hretry'

theorem chat_allRateLimited (resp : Nat → ReqOutcome)
    (h : ∀ i, i < 3 → resp i = .failure (some 429)) :
    llmClientChat resp =
      ⟨.error .rateLimitExceededMsg, 3, [5000, 10000, 20000]⟩ := by
  have h0 := h 0 (by omega)
  have h1 := h 1 (by omega)
  have h2 := h 2 (by omega)
  simp [llmClientChat, chatGo, h0, h1, h2]

/-- C8 counterexample: `LLMClient.chat`, after exhausting its three
rate-limited attempts, throws the fixed fresh
`Error('Rate limit exceeded. Please wait a few minutes and try again.')` —
not the last observed error (which would be the caught 429 failure) — so the
claim's "terminal error carrying the last observed error" fails for the
cited `LLMClient.chat`. -/
theorem C8_counterexample :
    (llmClientChat (fun _ => .failure (some 429))).result =
      .error .rateLimitExceededMsg ∧
    ChatErr.rateLimitExceededMsg ≠ ChatErr.raised (some 429) :=
  ⟨rfl, by decide⟩

/-- C8 (amended): for `MistralClient.makeRequest`, any failure with an HTTP
client-error status other than 429 and 402 aborts immediately — the error is
rethrown and no further attempt is made — at most `maxRetries + 1` attempts
are ever made, and exhausting all attempts rethrows the last observed error;
`LLMClient.chat` likewise aborts immediately on non-429 statuses and caps
attempts at 3, but its exhaustion error is a fixed fresh rate-limit message
rather than the last observed error. -/
theorem C8_amended :
    (∀ (cfg : RetryConfig) (resp : Nat → ReqOutcome) (k s : Nat),
        k ≤ cfg.maxRetries →
        (∀ i, i < k → retryableFailure (resp i) = true) →
        resp k = .failure (some s) →
        400 ≤ s → s < 500 → s ≠ 429 → s ≠ 402 →
        (makeRequest cfg resp).result = .error (.fromAttempt (some s)) ∧
        (makeRequest cfg resp).attempts = k + 1) ∧
    (∀ (cfg : RetryConfig) (resp : Nat → ReqOutcome),
        (makeRequest cfg resp).attempts ≤ cfg.maxRetries + 1) ∧
    (∀ (cfg : RetryConfig) (resp : Nat → ReqOutcome),
        (∀ i, i ≤ cfg.maxRetries → retryableFailure (resp i) = true) →
        ∃ st, resp cfg.maxRetries = .failure st ∧
          (makeRequest cfg resp).result = .error (.fromAttempt st) ∧
          (makeRequest cfg resp).attempts = cfg.maxRetries + 1) ∧
    (∀ (resp : Nat → ReqOutcome),
        (∀ i, i < 3 → resp i = .failure (some 429)) →
        (llmClientChat resp).result = .error .rateLimitExceededMsg ∧
        (llmClientChat resp).attempts = 3) := by
  refine ⟨?_, ?_, ?_, ?_⟩
  · intro cfg resp k s hk hretry hresp hs400 hs500 h429 h402
    have := mrGo_abort cfg resp s hs400 hs500 h429 h402 k (cfg.maxRetries + 1) 0 none []
      (by omega) (by intro i hi1 hi2; exact hretry i (by omega)) (by simpa using hresp)
    exact ⟨this.1, by have h2 := this.2; unfold makeRequest; omega⟩
  · intro cfg resp
    have := mrGo_attempts_le cfg resp (cfg.maxRetries + 1) 0 none []
    unfold makeRequest
    omega
  · intro cfg resp hretry
    exact mrGo_exhaust cfg resp (cfg.maxRetries + 1) 0 none [] (by omega) (by omega)
      (by intro i hi1 hi2; exact hretry i hi2)
  · intro resp h
    rw [chat_allRateLimited resp h]
    exact ⟨rfl, rfl⟩

/-- C8 witness: the amended theorem's abort clause at a concrete 404 on
attempt 0, and its chat clause on persistent 429s. -/
theorem C8_witness :
    ((makeRequest mistralRetryConfig (fun _ => .failure (some 404))).result =
        .error (.fromAttempt (some 404)) ∧
      (makeRequest mistralRetryConfig (fun _ => .failure (some 404))).attempts = 1) ∧
    ((llmClientChat (fun _ => .failure (some 429))).result =
        .error .rateLimitExceededMsg ∧
      (llmClientChat (fun _ => .failure (some 429))).attempts = 3) :=
  ⟨C8_amended.1 mistralRetryConfig (fun _ => .failure (some 404)) 0 404
      (by decide) (fun i hi => absurd hi (by omega)) rfl
      (by decide) (by decide) (by decide) (by decide),
   C8_amended.2.2.2 (fun _ => .failure (some 429)) (fun i _ => rfl)⟩


/-! ## C1 and C10: the dependency-graph validator -/

theorem transGen_head {α : Type} {r : α → α → Prop} {a b : α}
    (h : Relation.TransGen r a b) :
    ∃ c, r a c ∧ Relation.ReflTransGen r c b := by
  induction h with
  | single h1 => exact ⟨_, h1, Relation.ReflTransGen.refl⟩
  | tail _ h2 ih =>
    obtain ⟨c, hc, hcb⟩ := ih
    exact ⟨c, hc, hcb.tail h2⟩

theorem dfsLoopWith_mono (g : Int → Option (List Int)) (visit : Int → DfsState → DfsRes)
    (H : ∀ id st st', visit id st = .done st' →
      st.visited ⊆ st'.visited ∧ id ∈ st'.visited ∧
      (∀ v ∈ st'.visited, v ∈ st.visited ∨ (g v).isSome)) :
    ∀ (deps : List Int) (st st' : DfsState), dfsLoopWith visit deps st = .done st' →
      st.visited ⊆ st'.visited ∧ (∀ d ∈ deps, d ∈ st'.visited) ∧
      (∀ v ∈ st'.visited, v ∈ st.visited ∨ (g v).isSome) := by
  intro deps
  induction deps with
  | nil =>
    intro st st' h
    simp only [dfsLoopWith] at h
    cases h
    exact ⟨fun _ hv => hv, by simp, fun v hv => Or.inl hv⟩
  | cons dep rest ih =>
    intro st st' h
    simp only [dfsLoopWith] at h
    by_cases hvd : dep ∈ st.visited
    · rw [if_pos hvd] at h
      by_cases hrd : dep ∈ st.recStack
      · rw [if_pos hrd] at h; cases h
      · rw [if_neg hrd] at h
        obtain ⟨hsub, hdeps, hdom⟩ := ih st st' h
        refine ⟨hsub, ?_, hdom⟩
        intro d hd
        rcases List.mem_cons.mp hd with rfl | hd2
        · exact hsub hvd
        · exact hdeps d hd2
    · rw [if_neg hvd] at h
      cases hv : visit dep st with
      | found => simp only [hv] at h; cases h
      | thrown => simp only [hv] at h; cases h
      | outOfFuel => simp only [hv] at h; cases h
      | done st2 =>
        simp only [hv] at h
        obtain ⟨hsub2, hmem2, hdom2⟩ := H dep st st2 hv
        by_cases hrs : dep ∈ st2.recStack
        · rw [if_pos hrs] at h; cases h
        · rw [if_neg hrs] at h
          obtain ⟨hsub, hdeps, hdom⟩ := ih st2 st' h
          refine ⟨fun v hv2 => hsub (hsub2 hv2), ?_, ?_⟩
          · intro d hd
            rcases List.mem_cons.mp hd with rfl | hd2
            · exact hsub hmem2
            · exact hdeps d hd2
          · intro v hv2
            rcases hdom v hv2 with h1 | h1
            · exact hdom2 v h1
            · exact Or.inr h1

theorem dfsVisit_mono (g : Int → Option (List Int)) :
    ∀ (fuel : Nat) (id : Int) (st st' : DfsState), dfsVisit g fuel id st = .done st' →
      st.visited ⊆ st'.visited ∧ id ∈ st'.visited ∧
      (∀ v ∈ st'.visited, v ∈ st.visited ∨ (g v).isSome) := by
  intro fuel
  induction fuel with
  | zero => intro id st st' h; cases h
  | succ fuel ih =>
    intro id st st' h
    simp only [dfsVisit] at h
    by_cases hvd : id ∈ st.visited
    · rw [if_pos hvd] at h
      cases h
      exact ⟨fun _ hv => hv, hvd, fun v hv => Or.inl hv⟩
    · rw [if_neg hvd] at h
      cases hg : g id with
      | none => simp only [hg] at h; cases h
      | some deps =>
        simp only [hg] at h
        cases hl : dfsLoopWith (dfsVisit g fuel) deps ⟨id :: st.visited, id :: st.recStack⟩ with
        | found => simp only [hl] at h; cases h
        | thrown => simp only [hl] at h; cases h
        | outOfFuel => simp only [hl] at h; cases h
        | done st2 =>
          simp only [hl] at h
          cases h
          obtain ⟨hsub, _, hdom⟩ := dfsLoopWith_mono g (dfsVisit g fuel) ih deps _ st2 hl
          refine ⟨fun v hv => hsub (by simp [hv]), hsub (by simp), ?_⟩
          intro v hv
          rcases hdom v hv with h1 | h1
          · rcases List.mem_cons.mp h1 with rfl | h2
            · exact Or.inr (by rw [hg]; rfl)
            · exact Or.inl h2
          · exact Or.inr h1
theorem filter_length_le {α : Type} (p q : α → Bool) :
    ∀ l : List α, (∀ a ∈ l, q a = true → p a = true) →
      (l.filter q).length ≤ (l.filter p).length := by
  intro l
  induction l with
  | nil => intro _; simp
  | cons a rest ih =>
    intro h
    have ih2 := ih (fun x hx hq => h x (List.mem_cons_of_mem a hx) hq)
    by_cases hq : q a = true
    · have hp := h a (List.mem_cons_self _ _) hq
      simp only [List.filter_cons, hq, hp, if_true, List.length_cons]
      omega
    · rw [List.filter_cons, if_neg (by simp [hq])]
      by_cases hp : p a = true
      · rw [List.filter_cons, if_pos (by simp [hp])]
        simp only [List.length_cons]
        omega
      · rw [List.filter_cons, if_neg (by simp [hp])]
        exact ih2

theorem filter_length_lt {α : Type} (p q : α → Bool) :
    ∀ (l : List α) (x : α), (∀ a ∈ l, q a = true → p a = true) →
      x ∈ l → p x = true → q x = false →
      (l.filter q).length < (l.filter p).length := by
  intro l
  induction l with
  | nil => intro x _ hx; cases hx
  | cons a rest ih =>
    intro x h hx hp hq
    have hrest : ∀ a ∈ rest, q a = true → p a = true :=
      fun y hy hqy => h y (List.mem_cons_of_mem a hy) hqy
    rcases List.mem_cons.mp hx with rfl | hx2
    · rw [List.filter_cons, if_neg (by simp [hq]), List.filter_cons, if_pos (by simp [hp])]
      have := filter_length_le p q rest hrest
      simp only [List.length_cons]
      omega
    · by_cases hqa : q a = true
      · have hpa := h a (List.mem_cons_self _ _) hqa
        rw [List.filter_cons, if_pos (by simp [hqa]), List.filter_cons, if_pos (by simp [hpa])]
        simp only [List.length_cons]
        have := ih x hrest hx2 hp hq
        omega
      · rw [List.filter_cons, if_neg (by simp [hqa])]
        by_cases hpa : p a = true
        · rw [List.filter_cons, if_pos (by simp [hpa])]
          simp only [List.length_cons]
          have := ih x hrest hx2 hp hq
          omega
        · rw [List.filter_cons, if_neg (by simp [hpa])]
          exact ih x hrest hx2 hp hq

theorem countUnvisited_le (dom : List Int) (st st' : DfsState)
    (h : st.visited ⊆ st'.visited) : countUnvisited dom st' ≤ countUnvisited dom st := by
  apply filter_length_le
  intro a _ hq
  simp only [decide_eq_true_eq] at hq ⊢
  exact fun hmem => hq (h hmem)

theorem countUnvisited_lt (dom : List Int) (st : DfsState) (id : Int)
    (hdom : id ∈ dom) (hnv : id ∉ st.visited) (rs : List Int) :
    countUnvisited dom ⟨id :: st.visited, rs⟩ < countUnvisited dom st := by
  apply filter_length_lt _ _ dom.dedup id
  · intro a _ hq
    simp only [decide_eq_true_eq] at hq ⊢
    intro hmem
    exact hq (List.mem_cons_of_mem id hmem)
  · exact List.mem_dedup.mpr hdom
  · simp [hnv]
  · simp

theorem dfsLoopWith_nofuel (g : Int → Option (List Int)) (dom : List Int)
    (visit : Int → DfsState → DfsRes) (F : Nat)
    (Hfuel : ∀ id st, countUnvisited dom st < F → visit id st ≠ .outOfFuel)
    (Hmono : ∀ id st st', visit id st = .done st' → st.visited ⊆ st'.visited) :
    ∀ (deps : List Int) (st : DfsState), countUnvisited dom st < F →
      dfsLoopWith visit deps st ≠ .outOfFuel := by
  intro deps
  induction deps with
  | nil => intro st _ h; cases h
  | cons dep rest ih =>
    intro st hcount h
    simp only [dfsLoopWith] at h
    by_cases hvd : dep ∈ st.visited
    · rw [if_pos hvd] at h
      by_cases hrd : dep ∈ st.recStack
      · rw [if_pos hrd] at h; cases h
      · rw [if_neg hrd] at h; exact ih st hcount h
    · rw [if_neg hvd] at h
      cases hv : visit dep st with
      | found => simp only [hv] at h; cases h
      | thrown => simp only [hv] at h; cases h
      | outOfFuel => exact Hfuel dep st hcount hv
      | done st2 =>
        simp only [hv] at h
        by_cases hrs : dep ∈ st2.recStack
        · rw [if_pos hrs] at h; cases h
        · rw [if_neg hrs] at h
          have hle := countUnvisited_le dom st st2 (Hmono dep st st2 hv)
          exact ih st2 (by omega) h

theorem dfsVisit_nofuel (g : Int → Option (List Int)) (dom : List Int)
    (hdom : ∀ v, (g v).isSome → v ∈ dom) :
    ∀ (fuel : Nat) (id : Int) (st : DfsState), countUnvisited dom st < fuel →
      dfsVisit g fuel id st ≠ .outOfFuel := by
  intro fuel
  induction fuel with
  | zero => intro id st hcount; omega
  | succ fuel ih =>
    intro id st hcount h
    simp only [dfsVisit] at h
    by_cases hvd : id ∈ st.visited
    · rw [if_pos hvd] at h; cases h
    · rw [if_neg hvd] at h
      cases hg : g id with
      | none => simp only [hg] at h; cases h
      | some deps =>
        simp only [hg] at h
        have hid : id ∈ dom := hdom id (by rw [hg]; rfl)
        have hlt : countUnvisited dom ⟨id :: st.visited, id :: st.recStack⟩ < fuel := by
          have := countUnvisited_lt dom st id hid hvd (id :: st.recStack)
          omega
        cases hl : dfsLoopWith (dfsVisit g fuel) deps ⟨id :: st.visited, id :: st.recStack⟩ with
        | found => simp only [hl] at h; cases h
        | thrown => simp only [hl] at h; cases h
        | done st2 => simp only [hl] at h; cases h
        | outOfFuel =>
          exact dfsLoopWith_nofuel g dom (dfsVisit g fuel) fuel ih
            (fun i s s' hd => (dfsVisit_mono g fuel i s s' hd).1)
            deps _ hlt hl

theorem dfsLoopWith_nothrow (g : Int → Option (List Int)) (visit : Int → DfsState → DfsRes)
    (H : ∀ id st, (g id).isSome → visit id st ≠ .thrown) :
    ∀ (deps : List Int) (st : DfsState), (∀ d ∈ deps, (g d).isSome) →
      dfsLoopWith visit deps st ≠ .thrown := by
  intro deps
  induction deps with
  | nil => intro st _ h; cases h
  | cons dep rest ih =>
    intro st hdeps h
    have hrest : ∀ d ∈ rest, (g d).isSome :=
      fun d hd => hdeps d (List.mem_cons_of_mem dep hd)
    simp only [dfsLoopWith] at h
    by_cases hvd : dep ∈ st.visited
    · rw [if_pos hvd] at h
      by_cases hrd : dep ∈ st.recStack
      · rw [if_pos hrd] at h; cases h
      · rw [if_neg hrd] at h; exact ih st hrest h
    · rw [if_neg hvd] at h
      cases hv : visit dep st with
      | found => simp only [hv] at h; cases h
      | outOfFuel => simp only [hv] at h; cases h
      | thrown => exact H dep st (hdeps dep (List.mem_cons_self _ _)) hv
      | done st2 =>
        simp only [hv] at h
        by_cases hrs : dep ∈ st2.recStack
        · rw [if_pos hrs] at h; cases h
        · rw [if_neg hrs] at h; exact ih st2 hrest h

theorem dfsVisit_nothrow (g : Int → Option (List Int))
    (hclosed : ∀ u ds, g u = some ds → ∀ d ∈ ds, (g d).isSome) :
    ∀ (fuel : Nat) (id : Int) (st : DfsState), (g id).isSome →
      dfsVisit g fuel id st ≠ .thrown := by
  intro fuel
  induction fuel with
  | zero => intro id st _ h; cases h
  | succ fuel ih =>
    intro id st hid h
    simp only [dfsVisit] at h
    by_cases hvd : id ∈ st.visited
    · rw [if_pos hvd] at h; cases h
    · rw [if_neg hvd] at h
      cases hg : g id with
      | none => rw [hg] at hid; cases hid
      | some deps =>
        simp only [hg] at h
        cases hl : dfsLoopWith (dfsVisit g fuel) deps ⟨id :: st.visited, id :: st.recStack⟩ with
        | found => simp only [hl] at h; cases h
        | outOfFuel => simp only [hl] at h; cases h
        | done st2 => simp only [hl] at h; cases h
        | thrown =>
          exact dfsLoopWith_nothrow g (dfsVisit g fuel) (fun i s hi => ih i s hi)
            deps _ (hclosed id deps hg) hl
theorem chain_reaches_head (g : Int → Option (List Int)) :
    ∀ (rem : List Int) (owner x : Int),
      StackChain g (owner :: rem) → x ∈ owner :: rem →
      Relation.ReflTransGen (GEdge g) x owner := by
  intro rem
  induction rem with
  | nil =>
    intro owner x _ hx
    rcases List.mem_cons.mp hx with rfl | h
    · exact Relation.ReflTransGen.refl
    · cases h
  | cons o2 rem2 ih =>
    intro owner x hchain hx
    have hedge : GEdge g o2 owner := (List.chain'_cons.mp hchain).1
    have hchain2 : StackChain g (o2 :: rem2) := (List.chain'_cons.mp hchain).2
    rcases List.mem_cons.mp hx with rfl | hx2
    · exact Relation.ReflTransGen.refl
    · exact (ih o2 x hchain2 hx2).tail hedge

theorem black_reach (g : Int → Option (List Int)) (st : DfsState)
    (hclosed : ∀ v, BlackNode st v → ∀ ds, g v = some ds → ∀ d ∈ ds, BlackNode st d) :
    ∀ v u, BlackNode st v → Relation.ReflTransGen (GEdge g) v u → BlackNode st u := by
  intro v u hv h
  induction h with
  | refl => exact hv
  | tail _ h2 ih =>
    obtain ⟨ds, hds, hmem⟩ := h2
    exact hclosed _ ih ds hds _ hmem

theorem dfsLoopWith_spec (g : Int → Option (List Int)) (visit : Int → DfsState → DfsRes)
    (H : ∀ id st, DfsInv g st → id ∉ st.recStack → StackChain g (id :: st.recStack) →
      (visit id st = .found → ∃ v, Relation.TransGen (GEdge g) v v) ∧
      (∀ st', visit id st = .done st' →
        DfsInv g st' ∧ st.visited ⊆ st'.visited ∧ st'.recStack = st.recStack ∧
        BlackNode st' id)) :
    ∀ (deps : List Int) (st : DfsState) (owner : Int) (rem ds0 : List Int),
      DfsInv g st → st.recStack = owner :: rem → g owner = some ds0 →
      (∀ d ∈ deps, d ∈ ds0) → StackChain g st.recStack →
      (dfsLoopWith visit deps st = .found → ∃ v, Relation.TransGen (GEdge g) v v) ∧
      (∀ st', dfsLoopWith visit deps st = .done st' →
        DfsInv g st' ∧ st.visited ⊆ st'.visited ∧ st'.recStack = st.recStack ∧
        (∀ d ∈ deps, BlackNode st' d)) := by
  intro deps
  induction deps with
  | nil =>
    intro st owner rem ds0 inv hrs hgo hdeps hchain
    constructor
    · intro h; simp only [dfsLoopWith] at h; cases h
    · intro st' h
      simp only [dfsLoopWith] at h
      cases h
      exact ⟨inv, fun _ hv => hv, rfl, by simp⟩
  | cons dep rest ih =>
    intro st owner rem ds0 inv hrs hgo hdeps hchain
    have hdep0 : dep ∈ ds0 := hdeps dep (List.mem_cons_self _ _)
    have hrest0 : ∀ d ∈ rest, d ∈ ds0 := fun d hd => hdeps d (List.mem_cons_of_mem _ hd)
    have hedge_owner : GEdge g owner dep := ⟨ds0, hgo, hdep0⟩
    by_cases hvd : dep ∈ st.visited
    · by_cases hrd : dep ∈ st.recStack
      · have hreach : Relation.ReflTransGen (GEdge g) dep owner := by
          apply chain_reaches_head g rem owner dep
          · rw [← hrs]; exact hchain
          · rw [← hrs]; exact hrd
        have hcyc : ∃ v, Relation.TransGen (GEdge g) v v :=
          ⟨dep, Relation.TransGen.tail' hreach hedge_owner⟩
        constructor
        · intro _; exact hcyc
        · intro st' h
          simp only [dfsLoopWith, if_pos hvd, if_pos hrd] at h
          cases h
      · have hrec := ih st owner rem ds0 inv hrs hgo hrest0 hchain
        constructor
        · intro h
          simp only [dfsLoopWith, if_pos hvd, if_neg hrd] at h
          exact hrec.1 h
        · intro st' h
          simp only [dfsLoopWith, if_pos hvd, if_neg hrd] at h
          obtain ⟨inv', hsub, hreq, hblack⟩ := hrec.2 st' h
          refine ⟨inv', hsub, hreq, ?_⟩
          intro d hd
          rcases List.mem_cons.mp hd with rfl | hd2
          · exact ⟨hsub hvd, by rw [hreq]; exact hrd⟩
          · exact hblack d hd2
    · have hdnr : dep ∉ st.recStack := fun hmem => hvd (inv.rsv dep hmem)
      have hchain_dep : StackChain g (dep :: st.recStack) := by
        rw [hrs]
        refine List.chain'_cons.mpr ⟨?_, ?_⟩
        · exact hedge_owner
        · rw [← hrs]; exact hchain
      have Hd := H dep st inv hdnr hchain_dep
      cases hv : visit dep st with
      | found =>
        constructor
        · intro _; exact Hd.1 hv
        · intro st' h
          simp only [dfsLoopWith, if_neg hvd, hv] at h
          cases h
      | thrown =>
        constructor
        · intro h
          simp only [dfsLoopWith, if_neg hvd, hv] at h
          cases h
        · intro st' h
          simp only [dfsLoopWith, if_neg hvd, hv] at h
          cases h
      | outOfFuel =>
        constructor
        · intro h
          simp only [dfsLoopWith, if_neg hvd, hv] at h
          cases h
        · intro st' h
          simp only [dfsLoopWith, if_neg hvd, hv] at h
          cases h
      | done st2 =>
        obtain ⟨inv2, hsub2, hreq2, hblack2⟩ := Hd.2 st2 hv
        have hnotrs : dep ∉ st2.recStack := hblack2.2
        have hrs2 : st2.recStack = owner :: rem := by rw [hreq2, hrs]
        have hchain2 : StackChain g st2.recStack := by rw [hreq2]; exact hchain
        have hrec := ih st2 owner rem ds0 inv2 hrs2 hgo hrest0 hchain2
        constructor
        · intro h
          simp only [dfsLoopWith, if_neg hvd, hv, if_neg hnotrs] at h
          exact hrec.1 h
        · intro st' h
          simp only [dfsLoopWith, if_neg hvd, hv, if_neg hnotrs] at h
          obtain ⟨inv', hsub, hreq, hblack⟩ := hrec.2 st' h
          refine ⟨inv', fun v hv2 => hsub (hsub2 hv2), by rw [hreq, hreq2], ?_⟩
          intro d hd
          rcases List.mem_cons.mp hd with rfl | hd2
          · exact ⟨hsub hblack2.1, by rw [hreq, hreq2]; exact hdnr⟩
          · exact hblack d hd2

theorem dfsVisit_spec (g : Int → Option (List Int)) :
    ∀ (fuel : Nat) (id : Int) (st : DfsState),
      DfsInv g st → id ∉ st.recStack → StackChain g (id :: st.recStack) →
      (dfsVisit g fuel id st = .found → ∃ v, Relation.TransGen (GEdge g) v v) ∧
      (∀ st', dfsVisit g fuel id st = .done st' →
        DfsInv g st' ∧ st.visited ⊆ st'.visited ∧ st'.recStack = st.recStack ∧
        BlackNode st' id) := by
  intro fuel
  induction fuel with
  | zero =>
    intro id st inv hid hchain
    constructor
    · intro h
      simp only [dfsVisit] at h
      cases h
    · intro st' h
      simp only [dfsVisit] at h
      cases h
  | succ fuel ih =>
    intro id st inv hid hchain
    by_cases hvd : id ∈ st.visited
    · constructor
      · intro h
        simp only [dfsVisit] at h
        rw [if_pos hvd] at h
        cases h
      · intro st' h
        simp only [dfsVisit] at h
        rw [if_pos hvd] at h
        cases h
        have he : st.recStack.erase id = st.recStack := List.erase_of_not_mem hid
        refine ⟨?_, fun _ hv => hv, he, ⟨hvd, by rw [he]; exact hid⟩⟩
        refine ⟨?_, ?_, ?_⟩
        · intro v hv
          rw [he] at hv
          exact inv.rsv v hv
        · intro v hv ds hds d hd
          rw [show BlackNode ⟨st.visited, st.recStack.erase id⟩ = BlackNode st from by rw [he]] at hv ⊢
          exact inv.closed v hv ds hds d hd
        · intro v hv
          rw [show BlackNode ⟨st.visited, st.recStack.erase id⟩ = BlackNode st from by rw [he]] at hv
          exact inv.nocyc v hv
    · cases hg : g id with
      | none =>
        constructor
        · intro h
          simp only [dfsVisit] at h
          rw [if_neg hvd] at h
          simp only [hg] at h
          cases h
        · intro st' h
          simp only [dfsVisit] at h
          rw [if_neg hvd] at h
          simp only [hg] at h
          cases h
      | some deps =>
        have hblack_eq : ∀ v, BlackNode ⟨id :: st.visited, id :: st.recStack⟩ v ↔ BlackNode st v := by
          intro v
          constructor
          · rintro ⟨h1, h2⟩
            rcases List.mem_cons.mp h1 with rfl | h3
            · exact absurd (List.mem_cons_self _ _) h2
            · exact ⟨h3, fun hmem => h2 (List.mem_cons_of_mem _ hmem)⟩
          · rintro ⟨h1, h2⟩
            have hne : v ≠ id := fun he => hvd (he ▸ h1)
            exact ⟨List.mem_cons_of_mem _ h1,
              fun hmem => (List.mem_cons.mp hmem).elim hne h2⟩
        have inv1 : DfsInv g ⟨id :: st.visited, id :: st.recStack⟩ := by
          refine ⟨?_, ?_, ?_⟩
          · intro v hv
            rcases List.mem_cons.mp hv with rfl | h2
            · exact List.mem_cons_self _ _
            · exact List.mem_cons_of_mem _ (inv.rsv v h2)
          · intro v hv ds hds d hd
            exact (hblack_eq d).mpr (inv.closed v ((hblack_eq v).mp hv) ds hds d hd)
          · intro v hv
            exact inv.nocyc v ((hblack_eq v).mp hv)
        have Hspec := dfsLoopWith_spec g (dfsVisit g fuel) ih deps
          ⟨id :: st.visited, id :: st.recStack⟩ id st.recStack deps
          inv1 rfl hg (fun _ hd => hd) hchain
        cases hl : dfsLoopWith (dfsVisit g fuel) deps ⟨id :: st.visited, id :: st.recStack⟩ with
        | found =>
          constructor
          · intro _; exact Hspec.1 hl
          · intro st' h
            simp only [dfsVisit] at h
            rw [if_neg hvd] at h
            simp only [hg, hl] at h
            cases h
        | thrown =>
          constructor
          · intro h
            simp only [dfsVisit] at h
            rw [if_neg hvd] at h
            simp only [hg, hl] at h
            cases h
          · intro st' h
            simp only [dfsVisit] at h
            rw [if_neg hvd] at h
            simp only [hg, hl] at h
            cases h
        | outOfFuel =>
          constructor
          · intro h
            simp only [dfsVisit] at h
            rw [if_neg hvd] at h
            simp only [hg, hl] at h
            cases h
          · intro st' h
            simp only [dfsVisit] at h
            rw [if_neg hvd] at h
            simp only [hg, hl] at h
            cases h
        | done st2 =>
          obtain ⟨inv2, hsub2a, hreq2a, hblack2⟩ := Hspec.2 st2 hl
          have hsub2 : id :: st.visited ⊆ st2.visited := hsub2a
          have hreq2 : st2.recStack = id :: st.recStack := hreq2a
          have herase : st2.recStack.erase id = st.recStack := by
            rw [hreq2]
            exact List.erase_cons_head id st.recStack
          constructor
          · intro h
            simp only [dfsVisit] at h
            rw [if_neg hvd] at h
            simp only [hg, hl] at h
            cases h
          · intro st' h
            simp only [dfsVisit] at h
            rw [if_neg hvd] at h
            simp only [hg, hl] at h
            cases h
            have hblackS : ∀ v, BlackNode ⟨st2.visited, st2.recStack.erase id⟩ v ↔
                (v ∈ st2.visited ∧ v ∉ st.recStack) := by
              intro v
              show v ∈ st2.visited ∧ v ∉ st2.recStack.erase id ↔ _
              rw [herase]
            refine ⟨⟨?_, ?_, ?_⟩, ?_, herase, ?_⟩
            · intro v hv
              have hv2 : v ∈ st2.recStack.erase id := hv
              rw [herase] at hv2
              exact hsub2 (List.mem_cons_of_mem _ (inv.rsv v hv2))
            · intro v hv ds hds d hd
              rw [hblackS v] at hv
              rw [hblackS d]
              by_cases hvid : v = id
              · subst hvid
                rw [hg] at hds
                cases hds
                have hbd := hblack2 d hd
                refine ⟨hbd.1, ?_⟩
                intro hmem
                exact hbd.2 (by rw [hreq2]; exact List.mem_cons_of_mem _ hmem)
              · have hbv : BlackNode st2 v := by
                  refine ⟨hv.1, ?_⟩
                  rw [hreq2]
                  intro hmem
                  rcases List.mem_cons.mp hmem with he | hmem2
                  · exact hvid he
                  · exact hv.2 hmem2
                have hbd := inv2.closed v hbv ds hds d hd
                refine ⟨hbd.1, ?_⟩
                intro hmem
                exact hbd.2 (by rw [hreq2]; exact List.mem_cons_of_mem _ hmem)
            · intro v hv
              rw [hblackS v] at hv
              by_cases hvid : v = id
              · subst hvid
                intro hcyc
                obtain ⟨w, hw, hwid⟩ := transGen_head hcyc
                obtain ⟨ds', hds', hmem'⟩ := hw
                rw [hg] at hds'
                cases hds'
                have hbw : BlackNode st2 w := hblack2 w hmem'
                have hbid : BlackNode st2 v := black_reach g st2 inv2.closed w v hbw hwid
                exact hbid.2 (by rw [hreq2]; exact List.mem_cons_self _ _)
              · have hbv : BlackNode st2 v := by
                  refine ⟨hv.1, ?_⟩
                  rw [hreq2]
                  intro hmem
                  rcases List.mem_cons.mp hmem with he | hmem2
                  · exact hvid he
                  · exact hv.2 hmem2
                exact inv2.nocyc v hbv
            · intro v hv
              exact hsub2 (List.mem_cons_of_mem _ hv)
            · refine ⟨hsub2 (List.mem_cons_self _ _), ?_⟩
              show id ∉ st2.recStack.erase id
              rw [herase]
              exact hid
theorem hasCyclesGo_spec (g : Int → Option (List Int)) (fuel : Nat) :
    ∀ (ids : List Int) (st : DfsState),
      DfsInv g st → st.recStack = [] →
      (hasCyclesGo g fuel ids st = some (.ok true) →
        ∃ v, Relation.TransGen (GEdge g) v v) ∧
      (hasCyclesGo g fuel ids st = some (.ok false) →
        ∃ st', DfsInv g st' ∧ st'.recStack = [] ∧ st.visited ⊆ st'.visited ∧
          (∀ v ∈ ids, v ∈ st'.visited) ∧
          (∀ v ∈ st'.visited, v ∈ st.visited ∨ (g v).isSome)) := by
  intro ids
  induction ids with
  | nil =>
    intro st inv hrs
    constructor
    · intro h
      simp only [hasCyclesGo] at h
      exact absurd h (by simp)
    · intro _
      exact ⟨st, inv, hrs, fun _ hv => hv, by simp, fun v hv => Or.inl hv⟩
  | cons id rest ih =>
    intro st inv hrs
    have hidnr : id ∉ st.recStack := by rw [hrs]; simp
    have hchain : StackChain g (id :: st.recStack) := by
      rw [hrs]
      exact List.chain'_singleton id
    have Hv := dfsVisit_spec g fuel id st inv hidnr hchain
    cases hv : dfsVisit g fuel id st with
    | found =>
      constructor
      · intro _; exact Hv.1 hv
      · intro h
        simp only [hasCyclesGo, hv] at h
        exact absurd h (by simp)
    | thrown =>
      constructor
      · intro h; simp only [hasCyclesGo, hv] at h; exact absurd h (by simp)
      · intro h; simp only [hasCyclesGo, hv] at h; exact absurd h (by simp)
    | outOfFuel =>
      constructor
      · intro h; simp only [hasCyclesGo, hv] at h; exact absurd h (by simp)
      · intro h; simp only [hasCyclesGo, hv] at h; exact absurd h (by simp)
    | done st2 =>
      obtain ⟨inv2, hsub2, hreq2, hblack2⟩ := Hv.2 st2 hv
      have hrs2 : st2.recStack = [] := by rw [hreq2, hrs]
      have hmono := dfsVisit_mono g fuel id st st2 hv
      have hrec := ih st2 inv2 hrs2
      constructor
      · intro h
        simp only [hasCyclesGo, hv] at h
        exact hrec.1 h
      · intro h
        simp only [hasCyclesGo, hv] at h
        obtain ⟨st', inv', hrs', hsub', hids', hdom'⟩ := hrec.2 h
        refine ⟨st', inv', hrs', fun v hv2 => hsub' (hsub2 hv2), ?_, ?_⟩
        · intro v hv2
          rcases List.mem_cons.mp hv2 with rfl | h2
          · exact hsub' hblack2.1
          · exact hids' v h2
        · intro v hv2
          rcases hdom' v hv2 with h1 | h1
          · rcases hmono.2.2 v h1 with h2 | h2
            · exact Or.inl h2
            · exact Or.inr h2
          · exact Or.inr h1

theorem hasCyclesGo_nothrow (g : Int → Option (List Int)) (fuel : Nat)
    (hclosed : ∀ u ds, g u = some ds → ∀ d ∈ ds, (g d).isSome) :
    ∀ (ids : List Int) (st : DfsState), (∀ v ∈ ids, (g v).isSome) →
      hasCyclesGo g fuel ids st ≠ some (.error ()) := by
  intro ids
  induction ids with
  | nil => intro st _ h; simp only [hasCyclesGo] at h; exact absurd h (by simp)
  | cons id rest ih =>
    intro st hids h
    cases hv : dfsVisit g fuel id st with
    | found => simp only [hasCyclesGo, hv] at h; exact absurd h (by simp)
    | outOfFuel => simp only [hasCyclesGo, hv] at h; exact absurd h (by simp)
    | thrown =>
      exact dfsVisit_nothrow g hclosed fuel id st (hids id (List.mem_cons_self _ _)) hv
    | done st2 =>
      simp only [hasCyclesGo, hv] at h
      exact ih st2 (fun v hv2 => hids v (List.mem_cons_of_mem _ hv2)) h

theorem hasCyclesGo_nofuel (g : Int → Option (List Int)) (dom : List Int)
    (hdom : ∀ v, (g v).isSome → v ∈ dom) (fuel : Nat) :
    ∀ (ids : List Int) (st : DfsState), countUnvisited dom st < fuel →
      hasCyclesGo g fuel ids st ≠ none := by
  intro ids
  induction ids with
  | nil => intro st _ h; simp only [hasCyclesGo] at h; exact absurd h (by simp)
  | cons id rest ih =>
    intro st hcount h
    cases hv : dfsVisit g fuel id st with
    | found => simp only [hasCyclesGo, hv] at h; exact absurd h (by simp)
    | thrown => simp only [hasCyclesGo, hv] at h; exact absurd h (by simp)
    | outOfFuel => exact dfsVisit_nofuel g dom hdom fuel id st hcount hv
    | done st2 =>
      simp only [hasCyclesGo, hv] at h
      have hle := countUnvisited_le dom st st2 (dfsVisit_mono g fuel id st st2 hv).1
      exact ih st2 (by omega) h

theorem planGraph_isSome_iff (steps : List PlanStep) (v : Int) :
    (planGraph steps v).isSome = true ↔ v ∈ stepIds steps := by
  cases hf : steps.reverse.find? (fun s => s.id == v) with
  | none =>
    have hall := List.find?_eq_none.mp hf
    simp only [planGraph, hf, Option.map_none', Option.isSome_none]
    constructor
    · intro h; cases h
    · intro hmem
      obtain ⟨s, hs, hsid⟩ := List.mem_map.mp hmem
      exact absurd (by simp [hsid] : (fun s => s.id == v) s = true)
        (by simpa using hall s (List.mem_reverse.mpr hs))
  | some s =>
    simp only [planGraph, hf, Option.map_some', Option.isSome_some, true_iff]
    have hmem := List.mem_of_find?_eq_some hf
    have hpred := List.find?_some hf
    rw [beq_iff_eq] at hpred
    exact List.mem_map.mpr ⟨s, List.mem_reverse.mp hmem, hpred⟩

theorem planGraph_some (steps : List PlanStep) (a : Int) (ds : List Int)
    (h : planGraph steps a = some ds) :
    ∃ s ∈ steps, s.id = a ∧ s.dependencies = ds := by
  unfold planGraph at h
  cases hf : steps.reverse.find? (fun s => s.id == a) with
  | none => rw [hf] at h; cases h
  | some s =>
    rw [hf] at h
    simp only [Option.map_some', Option.some.injEq] at h
    have hmem := List.mem_of_find?_eq_some hf
    have hpred := List.find?_some hf
    rw [beq_iff_eq] at hpred
    exact ⟨s, List.mem_reverse.mp hmem, hpred, h⟩

theorem planGraph_of_nodup (steps : List PlanStep) (hnd : (stepIds steps).Nodup)
    (s : PlanStep) (hs : s ∈ steps) :
    planGraph steps s.id = some s.dependencies := by
  have hsome : (planGraph steps s.id).isSome = true :=
    (planGraph_isSome_iff steps s.id).mpr (List.mem_map.mpr ⟨s, hs, rfl⟩)
  cases hp : planGraph steps s.id with
  | none => rw [hp] at hsome; cases hsome
  | some ds =>
    obtain ⟨s2, hs2, hid2, hdeps2⟩ := planGraph_some steps s.id ds hp
    have heq : s2 = s := List.inj_on_of_nodup_map hnd hs2 hs hid2
    rw [heq] at hdeps2
    rw [hdeps2]

theorem gedge_to_restricted (steps : List PlanStep) (hri : ReferencesPresent steps)
    (a b : Int) (h : GEdge (planGraph steps) a b) : RestrictedDepEdge steps a b := by
  obtain ⟨ds, hds, hb⟩ := h
  obtain ⟨s, hs, hid, hdeps⟩ := planGraph_some steps a ds hds
  have hbdep : b ∈ s.dependencies := by rw [hdeps]; exact hb
  exact ⟨⟨s, hs, hid, hbdep⟩, hri s hs b hbdep⟩

theorem restricted_to_gedge (steps : List PlanStep) (hnd : (stepIds steps).Nodup)
    (a b : Int) (h : RestrictedDepEdge steps a b) : GEdge (planGraph steps) a b := by
  obtain ⟨⟨s, hs, hid, hb⟩, _⟩ := h
  exact ⟨s.dependencies, by rw [← hid]; exact planGraph_of_nodup steps hnd s hs, hb⟩

theorem dfsInv_init (g : Int → Option (List Int)) : DfsInv g ⟨[], []⟩ := by
  refine ⟨?_, ?_, ?_⟩
  · intro v hv; cases hv
  · rintro v ⟨hv, _⟩; cases hv
  · rintro v ⟨hv, _⟩; cases hv

theorem hasCycles_true_cycle (steps : List PlanStep)
    (h : hasCycles steps = some (.ok true)) :
    ∃ v, Relation.TransGen (GEdge (planGraph steps)) v v :=
  (hasCyclesGo_spec (planGraph steps) (steps.length + 1) (stepIds steps) ⟨[], []⟩
    (dfsInv_init _) rfl).1 h

theorem hasCycles_false_final (steps : List PlanStep)
    (h : hasCycles steps = some (.ok false)) :
    ∃ st', DfsInv (planGraph steps) st' ∧ st'.recStack = [] ∧
      (∀ v ∈ stepIds steps, v ∈ st'.visited) ∧
      (∀ v ∈ st'.visited, (planGraph steps v).isSome = true) := by
  obtain ⟨st', inv', hrs', _, hids', hdom'⟩ :=
    (hasCyclesGo_spec (planGraph steps) (steps.length + 1) (stepIds steps) ⟨[], []⟩
      (dfsInv_init _) rfl).2 h
  refine ⟨st', inv', hrs', hids', ?_⟩
  intro v hv
  rcases hdom' v hv with h1 | h1
  · cases h1
  · exact h1

theorem hasCycles_false_acyclic (steps : List PlanStep)
    (h : hasCycles steps = some (.ok false)) :
    ¬ ∃ v, Relation.TransGen (GEdge (planGraph steps)) v v := by
  obtain ⟨st', inv', hrs', hids', hdom'⟩ := hasCycles_false_final steps h
  rintro ⟨v, hcyc⟩
  obtain ⟨w, hw, _⟩ := transGen_head hcyc
  obtain ⟨ds, hds, _⟩ := hw
  have hvsome : (planGraph steps v).isSome = true := by rw [hds]; rfl
  have hvmem : v ∈ st'.visited := hids' v ((planGraph_isSome_iff steps v).mp hvsome)
  have hb : BlackNode st' v := ⟨hvmem, by rw [hrs']; simp⟩
  exact inv'.nocyc v hb hcyc

theorem hasCycles_ne_none (steps : List PlanStep) : hasCycles steps ≠ none := by
  apply hasCyclesGo_nofuel (planGraph steps) (stepIds steps)
    (fun v h => (planGraph_isSome_iff steps v).mp h) (steps.length + 1)
    (stepIds steps) ⟨[], []⟩
  have h1 : countUnvisited (stepIds steps) ⟨[], []⟩ ≤ (stepIds steps).dedup.length :=
    List.length_filter_le _ _
  have h2 : (stepIds steps).dedup.length ≤ (stepIds steps).length :=
    ((stepIds steps).dedup_sublist).length_le
  have h3 : (stepIds steps).length = steps.length := List.length_map _ _
  omega

theorem hasCycles_nothrow (steps : List PlanStep) (hri : ReferencesPresent steps) :
    hasCycles steps ≠ some (.error ()) := by
  apply hasCyclesGo_nothrow
  · intro u ds hds d hd
    obtain ⟨s, hs, _, hdeps⟩ := planGraph_some steps u ds hds
    exact (planGraph_isSome_iff steps d).mpr (hri s hs d (by rw [hdeps]; exact hd))
  · intro v hv
    exact (planGraph_isSome_iff steps v).mpr hv
/-- C1 counterexample: the plan with the single step `{1 → [2]}` has
pairwise-distinct ids and an acyclic restricted dependency relation (the
restriction is empty since 2 is not a step id), yet validation fails — the
cycle check's traversal hits the missing node and throws. -/
theorem C1_counterexample :
    hasUniqueIds exDanglingSteps = true ∧
    StepsAcyclic exDanglingSteps ∧
    plannerValidate exDanglingSteps = .error .typeError := by
  refine ⟨rfl, ?_, rfl⟩
  apply acyclic_of_rank (fun _ => 0)
  rintro a b ⟨⟨s, hs, rfl, hdep⟩, hb⟩
  simp only [exDanglingSteps, List.mem_singleton] at hs
  subst hs
  simp only [List.mem_singleton] at hdep
  subst hdep
  simp [stepIds, exDanglingSteps] at hb

/-- C1 (amended): for every plan whose steps satisfy referential integrity
(all dependencies reference present step ids), the validation invoked from
`generatePlan`/`refinePlan` succeeds iff the step ids are pairwise distinct
and the dependency relation restricted to the steps is acyclic; in
particular the plan `{1→[], 2→[1], 3→[2,4], 4→[3]}` fails validation and the
same plan with the edge `4→3` removed passes.  (Without referential
integrity the equivalence fails: a dangling reference makes the cycle check
throw, see the counterexample.) -/
theorem C1_amended :
    (∀ steps : List PlanStep, ReferencesPresent steps →
      (plannerValidate steps = .ok () ↔
        ((stepIds steps).Nodup ∧ StepsAcyclic steps))) ∧
    plannerValidate exCycleSteps = .error .cyclic ∧
    plannerValidate exNoCycleSteps = .ok () := by
  refine ⟨?_, rfl, rfl⟩
  intro steps hri
  unfold plannerValidate
  by_cases hu : hasUniqueIds steps = false
  · rw [if_pos hu]
    constructor
    · intro h; cases h
    · rintro ⟨hnd, _⟩
      rw [← hasUniqueIds_eq_true_iff] at hnd
      rw [hu] at hnd
      cases hnd
  · rw [if_neg hu]
    have hu2 : hasUniqueIds steps = true := by
      cases h : hasUniqueIds steps
      · exact absurd h hu
      · rfl
    have hnd : (stepIds steps).Nodup := (hasUniqueIds_eq_true_iff steps).mp hu2
    cases hc : hasCycles steps with
    | none => exact absurd hc (hasCycles_ne_none steps)
    | some r =>
      cases r with
      | error e =>
        cases e
        exact absurd hc (hasCycles_nothrow steps hri)
      | ok b =>
        cases b with
        | true =>
          simp only [hc]
          constructor
          · intro h; cases h
          · rintro ⟨_, hacyc⟩
            obtain ⟨v, hcyc⟩ := hasCycles_true_cycle steps hc
            exact absurd
              ⟨v, hcyc.mono (fun a b hab => gedge_to_restricted steps hri a b hab)⟩
              hacyc
        | false =>
          simp only [hc]
          constructor
          · intro _
            refine ⟨hnd, ?_⟩
            rintro ⟨v, hcyc⟩
            exact hasCycles_false_acyclic steps hc
              ⟨v, hcyc.mono (fun a b hab => restricted_to_gedge steps hnd a b hab)⟩
          · intro _; trivial

/-- C1 witness: the amended equivalence applied to the spec's acyclic
example plan. -/
theorem C1_witness :
    (plannerValidate exNoCycleSteps = .ok () ↔
      ((stepIds exNoCycleSteps).Nodup ∧ StepsAcyclic exNoCycleSteps)) ∧
    ((stepIds exNoCycleSteps).Nodup ∧ StepsAcyclic exNoCycleSteps) :=
  ⟨C1_amended.1 exNoCycleSteps (by unfold ReferencesPresent; decide),
   (C1_amended.1 exNoCycleSteps (by unfold ReferencesPresent; decide)).mp C1_amended.2.2⟩

/-- C10 counterexample: the plan `{1 → [1, 99]}` has a dangling dependency
(99 is no step id), yet `hasCycles` does return a boolean — the self-loop on
1 is detected before the traversal reaches the missing node, so the call
returns `true` instead of throwing. -/
theorem C10_counterexample :
    HasDanglingDep exDanglingCycleSteps ∧
    hasCycles exDanglingCycleSteps = some (.ok true) := by
  constructor
  · refine ⟨⟨1, "s1", "d1", [1, 99]⟩, by simp [exDanglingCycleSteps], 99, by simp, ?_⟩
    simp [stepIds, exDanglingCycleSteps]
  · rfl

/-- C10 (amended): when some step's dependencies contain an id that is not
the id of any step, and the step ids are distinct (duplicate ids are
rejected by the preceding uniqueness check anyway), `hasCycles` never
completes normally with `false` — it either throws on the missing node or
returns `true` on a cycle found first; consequently the validation invoked
from `generatePlan`/`refinePlan` rejects such a plan, wrapped as an
invalid-plan-format failure, instead of accepting it as acyclic. -/
theorem C10_amended (steps : List PlanStep) (hdangle : HasDanglingDep steps) :
    ((stepIds steps).Nodup → hasCycles steps ≠ some (.ok false)) ∧
    plannerValidate steps ≠ .ok () ∧
    (∀ p : Plan, p.steps = steps → ∀ q, plannerCheckParsedPlan p ≠ .ok q) := by
  have hmain : (stepIds steps).Nodup → hasCycles steps ≠ some (.ok false) := by
    intro hnd h
    obtain ⟨s, hs, d, hd, hnotin⟩ := hdangle
    obtain ⟨st', inv', hrs', hids', hdom'⟩ := hasCycles_false_final steps h
    have hsid : s.id ∈ st'.visited := hids' s.id (List.mem_map.mpr ⟨s, hs, rfl⟩)
    have hblack : BlackNode st' s.id := ⟨hsid, by rw [hrs']; simp⟩
    have hg : planGraph steps s.id = some s.dependencies := planGraph_of_nodup steps hnd s hs
    have hbd := inv'.closed s.id hblack s.dependencies hg d hd
    exact hnotin ((planGraph_isSome_iff steps d).mp (hdom' d hbd.1))
  have hval : plannerValidate steps ≠ .ok () := by
    intro h
    unfold plannerValidate at h
    by_cases hu : hasUniqueIds steps = false
    · rw [if_pos hu] at h; cases h
    · rw [if_neg hu] at h
      have hu2 : hasUniqueIds steps = true := by
        cases h2 : hasUniqueIds steps
        · exact absurd h2 hu
        · rfl
      have hnd : (stepIds steps).Nodup := (hasUniqueIds_eq_true_iff steps).mp hu2
      cases hc : hasCycles steps with
      | none => rw [hc] at h; cases h
      | some r =>
        cases r with
        | error e => cases e; rw [hc] at h; cases h
        | ok b =>
          cases b with
          | true => rw [hc] at h; cases h
          | false => exact hmain hnd hc
  refine ⟨hmain, hval, ?_⟩
  intro p hp q h
  unfold plannerCheckParsedPlan at h
  cases hv : plannerValidate p.steps with
  | ok u =>
    cases u
    rw [hp] at hv
    exact hval hv
  | error e =>
    rw [hv] at h
    cases h

/-- C10 witness: the amended theorem applied to the dangling-reference
example plan. -/
theorem C10_witness :
    hasCycles exDanglingSteps ≠ some (.ok false) ∧
    plannerValidate exDanglingSteps ≠ .ok () :=
  ⟨(C10_amended exDanglingSteps (by unfold HasDanglingDep; decide)).1 (by decide),
   (C10_amended exDanglingSteps (by unfold HasDanglingDep; decide)).2.1⟩

end Layr
